import Mathlib

/-!
Verification of the Lucentia insight ranking/aggregation engine and cash-flow
projection engine against their natural-language specification.

Sources embedded here:
- frontend/src/components/Dashboard.jsx : priority ranks, quick-score table,
  compareInsights, getDiverseInsights, buildFinancialProjection.
- the Insights component (src/unnamed/part_001) : mergeSimilarInsights,
  buildAllDomainSections (sections with a global cap and trimming).

Modelling conventions:
- JS strings are Lean String; a missing (undefined) field is Option.none.
  An empty string is falsy in JS, so falsy-coalescing is modelled explicitly.
- JS numbers on the ranking paths are integers (ranks, epoch timestamps),
  modelled as Nat / Int.  On the projection path amounts are modelled as
  rationals; the single square root of the source is kept symbolic
  (Real.sqrt) in theorem statements.
- Array.prototype.sort is stable (ECMA-262); it is modelled by a stable
  insertion sort parameterised by the boolean relation
  "comparator result is non-positive".
- JS Map and plain objects preserve insertion order; they are modelled as
  insertion-ordered association lists.
- While-loops whose body provably makes progress are modelled with a
  structural fuel argument large enough to reproduce the loop exactly; this
  keeps every definition computable by the kernel.
-/

namespace Lucentia

/-! ## Definitions -/

/-! ### Stable sort model for Array.prototype.sort -/

/-- Stable insertion of one element into a sorted list: the new element is
placed before the first element y with le x y, which matches the position a
stable sort gives an element originally to the left of the others. -/
def insertSorted {α : Type} (le : α → α → Bool) (x : α) : List α → List α
  | [] => [x]
  | y :: ys => if le x y then x :: y :: ys else y :: insertSorted le x ys

/-- Stable sort used to model JS Array.prototype.sort with comparator cmp,
with le a b meaning cmp a b is non-positive. -/
def jsSort {α : Type} (le : α → α → Bool) : List α → List α
  | [] => []
  | x :: xs => insertSorted le x (jsSort le xs)

/-! ### Dashboard.jsx : scoring and comparator -/

/-- One insight as consumed by the Dashboard ranking code.  Timestamps are
modelled post-parse: none stands for a missing or empty field, some t for a
field Date.parse maps to t (an unparseable but present field parses to 0 and
is modelled as some 0). -/
structure Insight where
  id : String
  title : String := ""
  priority : Option String := none
  created_at : Option Int := none
  updated_at : Option Int := none
  familyKey : Option String := none
  family : Option String := none
  deriving DecidableEq, Repr

/-- Falsy-or on an optional string: JS a || b falls through on undefined and
on the empty string. -/
def falsyOr (v : Option String) (d : Option String) : Option String :=
  match v with
  | none => d
  | some s => if s = "" then d else some s

/-- Charwise lowercase, modelling String.prototype.toLowerCase on the ASCII
priority labels (the source only ever lowercases priority strings). -/
def lowerString (s : String) : String := ⟨s.data.map Char.toLower⟩

/-- PRIORITY_RANK lookup of Dashboard.jsx: falsy priority gives 3, otherwise
the lowercased label is looked up in the high/medium/low table, default 3. -/
def getPriorityRank (value : Option String) : Nat :=
  match value with
  | none => 3
  | some s =>
    if s = "" then 3
    else
      match lowerString s with
      | "high" => 0
      | "medium" => 1
      | "low" => 2
      | _ => 3

/-- QUICK_SCALE static family score table of Dashboard.jsx. -/
def quickScale (family : String) : Option Nat :=
  match family with
  | "restaurant_comeback" => some 5
  | "favorite_restaurant_push" => some 5
  | "payment_method_optimization" => some 5
  | "category_subscription_opportunity" => some 5
  | "cross_user_affinity" => some 4
  | "merchant_loyalty" => some 4
  | "merchant_bundling" => some 4
  | "duplicate_services" => some 4
  | "duplicate_subscription" => some 4
  | "category_spike" => some 4
  | "category_trend" => some 3
  | "fee_detection" => some 3
  | "balance_warning" => some 5
  | "cash_buffer" => some 5
  | "air_travel_footprint" => some 3
  | "default" => some 2
  | _ => none

/-- Timestamp the comparator uses: created_at falsy-or updated_at, parsed,
0 when absent (parseTimestamp of Dashboard.jsx). -/
def scoreTimestamp (i : Insight) : Int :=
  match i.created_at with
  | some t => t
  | none =>
    match i.updated_at with
    | some t => t
    | none => 0

/-- Family key the comparator scores by: familyKey falsy-or family. -/
def scoreFamily (i : Insight) : Option String :=
  falsyOr i.familyKey i.family

/-- quickScore of scoreInsight: QUICK_SCALE lookup with default 2. -/
def quickScoreOf (i : Insight) : Nat :=
  match scoreFamily i with
  | none => 2
  | some f => (quickScale f).getD 2

/-- priorityScore of scoreInsight. -/
def priorityScoreOf (i : Insight) : Nat := getPriorityRank i.priority

/-- recencyScore of scoreInsight: negated parsed timestamp. -/
def recencyScoreOf (i : Insight) : Int := - scoreTimestamp i

/-- compareInsights of Dashboard.jsx: higher quickScore first, then lower
priority rank, then lower recencyScore (more recent). Negative means a
sorts before b. -/
def compareInsights (a b : Insight) : Int :=
  if quickScoreOf a ≠ quickScoreOf b then
    (quickScoreOf b : Int) - (quickScoreOf a : Int)
  else if priorityScoreOf a ≠ priorityScoreOf b then
    (priorityScoreOf a : Int) - (priorityScoreOf b : Int)
  else
    recencyScoreOf a - recencyScoreOf b

/-- Boolean form of the comparator used when feeding the stable sort model:
a may stay before b iff compareInsights a b is non-positive. -/
def cmpLe (a b : Insight) : Bool := compareInsights a b ≤ 0

/-! ### Dashboard.jsx : getDiverseInsights -/

/-- Bucketing key of getDiverseInsights: insight.family || insight.familyKey
|| the literal uncategorized. -/
def bucketKeyOf (i : Insight) : String :=
  match falsyOr i.family (falsyOr i.familyKey none) with
  | some s => s
  | none => "uncategorized"

/-- One family bucket of getDiverseInsights. -/
structure Bucket where
  familyKey : String
  insights : List Insight
  deriving DecidableEq, Repr

/-- Inserting one insight into the insertion-ordered bucket accumulator,
modelling the reduce over a plain object keyed by family. -/
def groupAdd (acc : List Bucket) (k : String) (i : Insight) : List Bucket :=
  match acc with
  | [] => [⟨k, [i]⟩]
  | b :: bs =>
    if b.familyKey = k then ⟨b.familyKey, b.insights ++ [i]⟩ :: bs
    else b :: groupAdd bs k i

/-- Object.values of the reduce in getDiverseInsights: buckets in first-seen
family order, each holding its insights in input order. -/
def buildBuckets (is : List Insight) : List Bucket :=
  is.foldl (fun acc i => groupAdd acc (bucketKeyOf i) i) []

/-- Per-bucket sort: bucket.insights.sort(compareInsights). -/
def sortBucketInsights (b : Bucket) : Bucket :=
  ⟨b.familyKey, jsSort cmpLe b.insights⟩

/-- Comparator of sortBuckets: empty buckets last, otherwise compare heads
with compareInsights. -/
def bucketCmp (a b : Bucket) : Int :=
  match a.insights, b.insights with
  | [], [] => 0
  | [], _ :: _ => 1
  | _ :: _, [] => -1
  | x :: _, y :: _ => compareInsights x y

/-- Boolean form of bucketCmp for the stable sort model. -/
def bucketLe (a b : Bucket) : Bool := bucketCmp a b ≤ 0

/-- sortBuckets of getDiverseInsights. -/
def sortBuckets (bs : List Bucket) : List Bucket := jsSort bucketLe bs

/-- One iteration of the for-loop over buckets inside the while-loop of
getDiverseInsights: with r remaining slots, shift the head of each non-empty
bucket in order, stopping once r items were taken.  Returns the items taken,
the updated buckets (same keys, shifted heads removed) and the addedInPass
flag. -/
def takePass : Nat → List Bucket → List Insight × List Bucket × Bool
  | _, [] => ([], [], false)
  | 0, bs => ([], bs, false)
  | r + 1, b :: bs =>
    match b.insights with
    | [] =>
      let t := takePass (r + 1) bs
      (t.1, ⟨b.familyKey, []⟩ :: t.2.1, t.2.2)
    | x :: xs =>
      let t := takePass r bs
      (x :: t.1, ⟨b.familyKey, xs⟩ :: t.2.1, true)

/-- While-loop of getDiverseInsights: r is the number of slots still free;
the loop stops when the limit is reached or a full pass adds nothing, and
re-sorts the bucket ordering after each completed pass.  The structural fuel
argument keeps the definition kernel-computable; every productive pass takes
at least one insight, so r slots are filled within r passes and fuel = r
reproduces the unbounded while-loop exactly. -/
def rrLoop (fuel : Nat) (r : Nat) (bs : List Bucket) : List Insight :=
  match fuel with
  | 0 => []
  | fuel + 1 =>
    if r = 0 then []
    else
      if (takePass r bs).2.2 = true then
        (takePass r bs).1 ++
          rrLoop fuel (r - (takePass r bs).1.length)
            (sortBuckets (takePass r bs).2.1)
      else (takePass r bs).1

/-- Initial bucket list of getDiverseInsights: group, sort each bucket, then
sort the bucket ordering once before the loop. -/
def initBuckets (insights : List Insight) : List Bucket :=
  sortBuckets ((buildBuckets insights).map sortBucketInsights)

/-- getDiverseInsights of Dashboard.jsx. -/
def getDiverseInsights (insights : List Insight) (limit : Nat := 6) :
    List Insight :=
  if insights = [] then []
  else rrLoop limit limit (initBuckets insights)

/-- Modelled from the claim wording for getDiverseInsights (claim C5):
"repeatedly take the head of the first non-empty bucket, remove it, and
re-sort the bucket ordering" — i.e. the bucket ordering is re-sorted after
every single removal, not once per full pass.  Helper: extract the head of
the first non-empty bucket. -/
def takeFirstHead : List Bucket → Option (Insight × List Bucket)
  | [] => none
  | b :: bs =>
    match b.insights with
    | [] =>
      match takeFirstHead bs with
      | none => none
      | some (x, bs2) => some (x, ⟨b.familyKey, []⟩ :: bs2)
    | x :: xs => some (x, ⟨b.familyKey, xs⟩ :: bs)

/-- Modelled from the claim wording for getDiverseInsights (claim C5): the
loop that takes one head, re-sorts, and repeats until N items are collected
or all buckets are empty. -/
def claimTakeLoop : Nat → List Bucket → List Insight
  | 0, _ => []
  | r + 1, bs =>
    match takeFirstHead bs with
    | none => []
    | some (x, bs2) => x :: claimTakeLoop r (sortBuckets bs2)

/-- Modelled from the claim wording for getDiverseInsights (claim C5): group
by family, sort buckets, then take-head/remove/re-sort one element at a
time. -/
def diverseClaimC5 (insights : List Insight) (limit : Nat) : List Insight :=
  if insights = [] then []
  else claimTakeLoop limit (initBuckets insights)

/-- Items one pass of the round-robin takes: the head of each non-empty
bucket in order, stopping once r items were taken.  Used to state the
amended form of claim C5. -/
def passPicks : Nat → List Bucket → List Insight
  | _, [] => []
  | 0, _ => []
  | r + 1, b :: bs =>
    match b.insights with
    | [] => passPicks (r + 1) bs
    | x :: _ => x :: passPicks r bs

/-- Bucket list left behind by one pass of the round-robin. -/
def passRest : Nat → List Bucket → List Bucket
  | _, [] => []
  | 0, bs => bs
  | r + 1, b :: bs =>
    match b.insights with
    | [] => ⟨b.familyKey, []⟩ :: passRest (r + 1) bs
    | _ :: xs => ⟨b.familyKey, xs⟩ :: passRest r bs

/-- Amended description of getDiverseInsights (for claim C5): in repeated
passes take the head of every non-empty bucket in bucket order, stopping
once the limit is reached; re-sort the bucket ordering between passes; stop
when the limit is reached or a pass takes nothing. -/
def diverseRoundRobinSpec (fuel : Nat) (r : Nat) (bs : List Bucket) :
    List Insight :=
  match fuel with
  | 0 => []
  | fuel + 1 =>
    if r = 0 then []
    else
      if passPicks r bs = [] then []
      else
        passPicks r bs ++
          diverseRoundRobinSpec fuel (r - (passPicks r bs).length)
            (sortBuckets (passRest r bs))

/-! ### Insights component : domain tree, merge, and sections -/

/-- One insight as it arrives in the Domain → Family → Insight tree. -/
structure RawInsight where
  id : String
  title : String := ""
  description : String := ""
  priority : Option String := none
  created_at : Option Int := none
  deriving DecidableEq, Repr

/-- One family node of the insight tree. -/
structure InsightFamily where
  key : String
  name : String := ""
  description : String := ""
  insights : List RawInsight := []
  deriving DecidableEq, Repr

/-- One domain node of the insight tree. -/
structure InsightDomain where
  key : String
  name : String := ""
  description : String := ""
  families : List InsightFamily := []
  deriving DecidableEq, Repr

/-- One merged insight: the raw insight spread together with its originating
domain and family names, as built inside mergeSimilarInsights. -/
structure MInsight where
  id : String
  title : String := ""
  description : String := ""
  priority : Option String := none
  created_at : Option Int := none
  domainKey : String := ""
  domainName : String := ""
  domainDescription : String := ""
  familyKey : String := ""
  familyName : String := ""
  familyDescription : String := ""
  deriving DecidableEq, Repr

/-- Annotation step of mergeSimilarInsights: spread the insight and attach
domain and family metadata. -/
def enrichInsight (d : InsightDomain) (f : InsightFamily) (i : RawInsight) :
    MInsight :=
  { id := i.id, title := i.title, description := i.description,
    priority := i.priority, created_at := i.created_at,
    domainKey := d.key, domainName := d.name,
    domainDescription := d.description,
    familyKey := f.key, familyName := f.name,
    familyDescription := f.description }

/-- Priority rank used by the Insights component (mergeSimilarInsights and
buildAllDomainSections): exact lookup high 0, medium 1, low 2, anything else
3 — no lowercasing here, unlike the Dashboard. -/
def priorityRankExact (p : Option String) : Nat :=
  match p with
  | some "high" => 0
  | some "medium" => 1
  | some "low" => 2
  | _ => 3

/-- Rank of a merged insight. -/
def rankM (i : MInsight) : Nat := priorityRankExact i.priority

/-- Deduplication key of mergeSimilarInsights: the template string
family.key|insight.title (a single string, not a pair). -/
def mergeKeyOf (i : MInsight) : String := i.familyKey ++ "|" ++ i.title

/-- Map.get on the insertion-ordered association list modelling a JS Map. -/
def alGet (m : List (String × MInsight)) (k : String) : Option MInsight :=
  match m with
  | [] => none
  | (k2, v) :: rest => if k2 = k then some v else alGet rest k

/-- Map.set on the insertion-ordered association list: an existing key keeps
its position, a new key is appended. -/
def alSet (m : List (String × MInsight)) (k : String) (v : MInsight) :
    List (String × MInsight) :=
  match m with
  | [] => [(k, v)]
  | (k2, v2) :: rest =>
    if k2 = k then (k2, v) :: rest else (k2, v2) :: alSet rest k v

/-- Traversal order of mergeSimilarInsights: domains, then families, then
insights, each already annotated. -/
def allEnriched (ds : List InsightDomain) : List MInsight :=
  ds.flatMap fun d =>
    d.families.flatMap fun f => f.insights.map (enrichInsight d f)

/-- Body of the innermost forEach of mergeSimilarInsights: keep the map
entry unless the key is new or the incoming insight has a strictly lower
priority rank. -/
def mergeStep (m : List (String × MInsight)) (x : MInsight) :
    List (String × MInsight) :=
  match alGet m (mergeKeyOf x) with
  | none => alSet m (mergeKeyOf x) x
  | some cur => if rankM x < rankM cur then alSet m (mergeKeyOf x) x else m

/-- Map state of mergeSimilarInsights after folding a list of annotated
insights in traversal order. -/
def mergeMap (l : List MInsight) : List (String × MInsight) :=
  l.foldl mergeStep []

/-- mergeSimilarInsights of the Insights component:
Array.from(map.values()) after folding every annotated insight in. -/
def mergeSimilarInsights (ds : List InsightDomain) : List MInsight :=
  (mergeMap (allEnriched ds)).map (·.2)

/-- First element of the list attaining the minimal priority rank: the value
the merge keeps for one key (lower rank replaces, ties keep the earlier). -/
def firstMinBy (l : List MInsight) : Option MInsight :=
  match l with
  | [] => none
  | x :: xs =>
    match firstMinBy xs with
    | none => some x
    | some a => some (if rankM a < rankM x then a else x)

/-- Boolean rank ordering of the section sort:
priorityRank(a) - priorityRank(b) non-positive. -/
def rankLeM (a b : MInsight) : Bool := rankM a ≤ rankM b

/-- pickTop of buildAllDomainSections: filter, sort by priority rank alone
(stable), take the first limit. -/
def pickTop (insights : List MInsight) (p : MInsight → Bool) (limit : Nat) :
    List MInsight :=
  (jsSort rankLeM (insights.filter p)).take limit

/-- getDomainTitle of the Insights component (only the five fixed keys are
ever passed by buildAllDomainSections). -/
def getDomainTitle (key : String) : String :=
  match key with
  | "spending_patterns" => "Spending Patterns"
  | "spending_trends" => "Spending Trends"
  | "optimization_rewards" => "Optimization & Rewards"
  | "behavior_lifestyle" => "Behavior & Lifestyle"
  | "sustainability_local" => "Sustainability & Local Impact"
  | k => k

/-- One byDomain group of buildAllDomainSections. -/
structure DomainGroup where
  key : String
  title : String := ""
  insights : List MInsight := []
  deriving DecidableEq, Repr

/-- Fixed domain priority order of buildAllDomainSections. -/
def sectionDomainOrder : List String :=
  ["spending_patterns", "spending_trends", "optimization_rewards",
   "behavior_lifestyle", "sustainability_local"]

/-- Cross-cutting family keys feeding the crossDomain group. -/
def crossDomainFamilies : List String :=
  ["cross_user_affinity", "delivery_vs_grocery", "subscription_volume",
   "subscription_price_change"]

/-- Per-domain selection loop of buildAllDomainSections: for each domain key
in order, the top 2 insights of that domain not yet claimed (by id) are
taken, their ids are added to the selected set, and a group is emitted only
when non-empty.  The selected set is modelled as the list of claimed ids. -/
def domainGroupsGo (insights : List MInsight) :
    List String → List String → List DomainGroup
  | [], _ => []
  | dk :: rest, sel =>
    let picks :=
      (jsSort rankLeM
        (insights.filter fun i => i.domainKey == dk && !(sel.contains i.id))).take 2
    (if picks.isEmpty then [] else [⟨dk, getDomainTitle dk, picks⟩]) ++
      domainGroupsGo insights rest (sel ++ picks.map (·.id))

/-- The keyHighlights group: top 5 of all merged insights by priority rank. -/
def sectionKeyHighlights (insights : List MInsight) : List MInsight :=
  pickTop insights (fun _ => true) 5

/-- The majorSpending group: top 3 of the category_trend family. -/
def sectionMajorSpending (insights : List MInsight) : List MInsight :=
  pickTop insights (fun i => i.familyKey == "category_trend") 3

/-- The crossDomain group: top 3 of the fixed cross-cutting families. -/
def sectionCrossDomain (insights : List MInsight) : List MInsight :=
  pickTop insights (fun i => crossDomainFamilies.contains i.familyKey) 3

/-- Ids in the selected set after the three pickTop calls. -/
def sectionSelectedIds (insights : List MInsight) : List String :=
  (sectionKeyHighlights insights ++ sectionMajorSpending insights ++
    sectionCrossDomain insights).map (·.id)

/-- The byDomain groups before any cap trimming. -/
def sectionRawByDomain (insights : List MInsight) : List DomainGroup :=
  domainGroupsGo insights sectionDomainOrder (sectionSelectedIds insights)

/-- Total insight count of a group list. -/
def groupsSize (gs : List DomainGroup) : Nat :=
  (gs.map fun g => g.insights.length).sum

/-- Trimming loop of buildAllDomainSections on the reversed group list: pop
individual insights from the end of the last group first, drop a group once
emptied, and stop when the excess is gone. -/
def trimGroupsRev : Nat → List DomainGroup → List DomainGroup
  | _, [] => []
  | 0, gs => gs
  | e + 1, g :: gs =>
    let k := min (e + 1) g.insights.length
    let kept := g.insights.take (g.insights.length - k)
    (if kept.isEmpty then [] else [⟨g.key, g.title, kept⟩]) ++
      trimGroupsRev (e + 1 - k) gs

/-- Trimming of buildAllDomainSections: walk the domain groups from the
tail, removing insights until the excess over the cap is gone. -/
def trimDomainGroups (gs : List DomainGroup) (excess : Nat) :
    List DomainGroup :=
  (trimGroupsRev excess gs.reverse).reverse

/-- The four section groups returned by buildAllDomainSections. -/
structure Sections where
  keyHighlights : List MInsight
  majorSpending : List MInsight
  crossDomain : List MInsight
  byDomain : List DomainGroup
  deriving DecidableEq, Repr

/-- buildAllDomainSections of the Insights component, with MAX_TOTAL 15. -/
def buildAllDomainSections (insights : List MInsight) : Sections :=
  let keyHighlights := sectionKeyHighlights insights
  let majorSpending := sectionMajorSpending insights
  let crossDomain := sectionCrossDomain insights
  let domainGroups := sectionRawByDomain insights
  let totalUsed :=
    keyHighlights.length + majorSpending.length + crossDomain.length +
      groupsSize domainGroups
  if totalUsed > 15 then
    ⟨keyHighlights, majorSpending, crossDomain,
      trimDomainGroups domainGroups (totalUsed - 15)⟩
  else ⟨keyHighlights, majorSpending, crossDomain, domainGroups⟩

/-! ### Dashboard.jsx : buildFinancialProjection -/

/-- One transaction record as consumed by buildFinancialProjection.  The
date is modelled post-parse as a UTC (year, month) pair, none standing for
an invalid date; the amount is none when non-numeric (Number of it is NaN,
so the source coerces it to 0). -/
structure Txn where
  date : Option (Nat × Nat)
  amount : Option ℚ
  category_primary : Option String := none
  deriving DecidableEq, Repr

/-- Amount coercion of the source: Number(transaction.amount) || 0. -/
def amountOf (t : Txn) : ℚ := t.amount.getD 0

/-- Charwise split on one separator character, modelling
String.prototype.split for the category formatter. -/
def splitOnChar (c : Char) : List Char → List (List Char)
  | [] => [[]]
  | x :: xs =>
    let r := splitOnChar c xs
    if x = c then [] :: r
    else
      match r with
      | [] => [[x]]
      | w :: ws => (x :: w) :: ws

/-- Uppercasing of the first character of a word:
word.charAt(0).toUpperCase() + word.slice(1). -/
def capitalizeWord : List Char → List Char
  | [] => []
  | x :: xs => Char.toUpper x :: xs

/-- formatCategoryLabel of Dashboard.jsx: falsy label gives General,
otherwise lowercase, split on underscores, capitalize each word, join with
spaces. -/
def formatCategoryLabel (label : Option String) : String :=
  match label with
  | none => "General"
  | some s =>
    if s = "" then "General"
    else
      ⟨(List.intersperse [' ']
          ((splitOnChar '_' (s.data.map Char.toLower)).map capitalizeWord)).flatten⟩

/-- Category label of one transaction:
formatCategoryLabel(transaction.category_primary || Other). -/
def catOf (t : Txn) : String :=
  formatCategoryLabel (falsyOr t.category_primary (some "Other"))

/-- One month bucket accumulated by buildFinancialProjection. -/
structure MonthBucket where
  income : ℚ := 0
  spending : ℚ := 0
  categories : List (String × ℚ) := []
  incomeEvents : List ℚ := []
  spendingEvents : List ℚ := []
  sampleTransactions : List Txn := []
  deriving DecidableEq, Repr

/-- Category accumulation:
bucket.categories[category] = (bucket.categories[category] || 0) + amount,
on the insertion-ordered object model. -/
def updateCat (cats : List (String × ℚ)) (c : String) (v : ℚ) :
    List (String × ℚ) :=
  match cats with
  | [] => [(c, v)]
  | (c2, v2) :: rest =>
    if c2 = c then (c2, v2 + v) :: rest else (c2, v2) :: updateCat rest c v

/-- Per-transaction bucket update of buildFinancialProjection: negative
amounts are income (absolute value), everything else — zero included — is
spending. -/
def bucketAdd (b : MonthBucket) (t : Txn) : MonthBucket :=
  let amount := amountOf t
  let category := catOf t
  let b1 := { b with sampleTransactions := b.sampleTransactions ++ [t] }
  if amount < 0 then
    { b1 with
      income := b1.income + (-amount),
      incomeEvents := b1.incomeEvents ++ [-amount] }
  else
    { b1 with
      spending := b1.spending + amount,
      spendingEvents := b1.spendingEvents ++ [amount],
      categories := updateCat b1.categories category amount }

/-- Updating the insertion-ordered month map with one transaction: an absent
month key is appended with an empty bucket first (Map.set then get). -/
def bmUpdate (m : List ((Nat × Nat) × MonthBucket)) (k : Nat × Nat)
    (t : Txn) : List ((Nat × Nat) × MonthBucket) :=
  match m with
  | [] => [(k, bucketAdd {} t)]
  | (k2, b) :: rest =>
    if k2 = k then (k2, bucketAdd b t) :: rest
    else (k2, b) :: bmUpdate rest k t

/-- Month-bucket map of buildFinancialProjection: transactions whose date
fails to parse are skipped. -/
def bucketsOf (txs : List Txn) : List ((Nat × Nat) × MonthBucket) :=
  txs.foldl
    (fun m t =>
      match t.date with
      | none => m
      | some k => bmUpdate m k t)
    []

/-- Lookup in the month map. -/
def bmGet (m : List ((Nat × Nat) × MonthBucket)) (k : Nat × Nat) :
    Option MonthBucket :=
  match m with
  | [] => none
  | (k2, b) :: rest => if k2 = k then some b else bmGet rest k

/-- Ordering of YYYY-MM month keys: the default string sort of the source
coincides with the lexicographic order on (year, month) because years are
four digits and months zero-padded to two. -/
def keyLe (a b : Nat × Nat) : Bool :=
  a.1 < b.1 || (a.1 = b.1 && a.2 ≤ b.2)

/-- One windowed month as used by the statistics (the display-only label,
topCategories strings and sample transactions carry no further data and are
omitted). -/
structure MonthData where
  key : Nat × Nat
  income : ℚ
  spending : ℚ
  net : ℚ
  categories : List (String × ℚ)
  incomeEvents : List ℚ
  spendingEvents : List ℚ
  deriving DecidableEq, Repr

/-- monthlyData of buildFinancialProjection: sort the month keys, keep the
most recent 6 (slice(-6)), and expose each bucket with its net. -/
def monthlyData (txs : List Txn) : List MonthData :=
  let m := bucketsOf txs
  let ordered := jsSort keyLe (m.map (·.1))
  (ordered.drop (ordered.length - 6)).map fun k =>
    let b := (bmGet m k).getD {}
    { key := k, income := b.income, spending := b.spending,
      net := b.income - b.spending, categories := b.categories,
      incomeEvents := b.incomeEvents, spendingEvents := b.spendingEvents }

/-- Discriminated result head of buildFinancialProjection. -/
inductive ProjectionGate where
  | collecting
  | insufficient
  | ok
  deriving DecidableEq, Repr

/-- Early-return structure of buildFinancialProjection: no transactions or
a null/undefined balance give the collecting variant; fewer than 3 windowed
months give the insufficient variant; otherwise a populated projection is
built. -/
def buildProjectionGate (txs : List Txn) (currentBalance : Option ℚ) :
    ProjectionGate :=
  if txs.isEmpty || currentBalance.isNone then ProjectionGate.collecting
  else if (monthlyData txs).length < 3 then ProjectionGate.insufficient
  else ProjectionGate.ok

/-- Mean of the source: 0 on an empty list. -/
def average (l : List ℚ) : ℚ :=
  if l.length = 0 then 0 else l.sum / l.length

/-- Square of the population standard deviation of the source, which
returns 0 for fewer than 2 values.  The source value is the square root of
this quantity; keeping the square keeps the definition rational and
computable, and the bridging lemmas relate comparisons on the root to
comparisons on the square. -/
def stddevSq (l : List ℚ) : ℚ :=
  if l.length < 2 then 0 else average (l.map fun v => (v - average l) ^ 2)

/-- avgIncome: mean of the monthly incomes that are strictly positive. -/
def avgIncomeOf (md : List MonthData) : ℚ :=
  average ((md.map (·.income)).filter fun v => decide (0 < v))

/-- avgSpending: mean spending across the window. -/
def avgSpendingOf (md : List MonthData) : ℚ :=
  average (md.map (·.spending))

/-- Square of spendingStd. -/
def spendingVarOf (md : List MonthData) : ℚ :=
  stddevSq (md.map (·.spending))

/-- netChange = avgIncome - avgSpending. -/
def netChangeOf (md : List MonthData) : ℚ :=
  avgIncomeOf md - avgSpendingOf md

/-- Square of incomeStd: deviation of the flattened per-event income
magnitudes, in window order. -/
def incomeVarOf (md : List MonthData) : ℚ :=
  stddevSq (md.flatMap (·.incomeEvents))

/-- incomeConfidence of the source: low unless avgIncome is positive, then
high when incomeStd / avgIncome < 0.2 and medium when < 0.45.  With
avgIncome positive and the deviation the square root of incomeVar, the
source comparison sqrt v / a < c is equivalent to v < (c * a) ^ 2 (see the
bridging lemma incomeConfidence_matches_sqrt), which keeps this definition
rational. -/
def incomeConfidenceOf (md : List MonthData) : String :=
  if 0 < avgIncomeOf md then
    if incomeVarOf md < (1 / 5 * avgIncomeOf md) ^ 2 then "high"
    else if incomeVarOf md < (9 / 20 * avgIncomeOf md) ^ 2 then "medium"
    else "low"
  else "low"

/-- Backward walk of the source: the most recent month receives the current
balance, and each step subtracts that month's net to obtain the balance of
the month before. -/
def backwardWalk (bal : ℚ) : List MonthData → List (MonthData × ℚ)
  | [] => []
  | e :: rest => (e, bal) :: backwardWalk (bal - e.net) rest

/-- historicalLine of the source: monthlyData is strictly increasing in
month key, so the sort by ascending date is the identity and the sort by
descending date is reversal; the balances are then assigned most-recent
first and the result reversed back to chronological order. -/
def historicalLine (md : List MonthData) (bal : ℚ) : List (MonthData × ℚ) :=
  (backwardWalk bal md.reverse).reverse

/-- lastHistoricalBalance of the source (the balance of the last historical
entry, with the current balance as fallback). -/
def lastHistoricalBalance (md : List MonthData) (bal : ℚ) : ℚ :=
  match (historicalLine md bal).getLast? with
  | some p => p.2
  | none => bal

/-- One forward projection point. -/
structure ForecastPoint (K : Type) where
  projectedBalance : K
  upperBalance : K
  lowerBalance : K

/-- Forward projection loop of the source: each month adds netChange to the
projected balance, netChange + volatility to the upper band and netChange -
volatility to the lower band.  Generic in the number type so the rational
statistics and the real-valued volatility (a square root) can share it. -/
def forecastLoop {K : Type} [AddCommGroup K] (net vol : K) :
    K → K → K → Nat → List (ForecastPoint K)
  | _, _, _, 0 => []
  | pb, ub, lb, n + 1 =>
    ⟨pb + net, ub + (net + vol), lb + (net - vol)⟩ ::
      forecastLoop net vol (pb + net) (ub + (net + vol)) (lb + (net - vol)) n

/-- The four forecast months of the source (FUTURE_MONTHS = 4), starting the
three running balances at lastHistoricalBalance. -/
def forecastOf {K : Type} [AddCommGroup K] (base net vol : K) :
    List (ForecastPoint K) :=
  forecastLoop net vol base base base 4

/-- Id lists of the four section groups, in order, for stating that no id
appears in two groups. -/
def sectionsIdLists (s : Sections) : List (List String) :=
  [s.keyHighlights.map (·.id), s.majorSpending.map (·.id),
   s.crossDomain.map (·.id), (s.byDomain.flatMap (·.insights)).map (·.id)]

/-- A merged insight viewed through the Dashboard scoring functions (the
Dashboard enriches with the same familyKey field). -/
def toDashboardInsight (m : MInsight) : Insight :=
  { id := m.id, title := m.title, priority := m.priority,
    created_at := m.created_at, updated_at := none,
    familyKey := some m.familyKey, family := none }

/-- Modelled from the claim wording for the SectionAllocator (claim C2): the
ids of the Comparator-top-k of a merged collection, i.e. sort with
compareInsights and take the first k. -/
def comparatorTopIds (insights : List MInsight) (k : Nat) : List String :=
  ((jsSort cmpLe (insights.map toDashboardInsight)).take k).map (·.id)

/-- Balance sequence determined by a starting balance and a list of per-month
nets, in the backward-walk order (used to state facts about backwardWalk). -/
def balancesFromNets (bal : ℚ) : List ℚ → List ℚ
  | [] => []
  | n :: rest => bal :: balancesFromNets (bal - n) rest

/-! ### Concrete example inputs used by counterexamples and witnesses -/

/-- One transaction of the concrete projection scenario: month m of 2024. -/
def scenarioTxn (m : Nat) (amt : ℚ) : Txn :=
  { date := some (2024, m), amount := some amt,
    category_primary := some "groceries" }

/-- The concrete scenario of the spec: three months, one income event of
2000 each (negative amount = inflow) and spending 1500, 1700, 1600. -/
def scenarioTxs : List Txn :=
  [scenarioTxn 1 (-2000), scenarioTxn 1 1500,
   scenarioTxn 2 (-2000), scenarioTxn 2 1700,
   scenarioTxn 3 (-2000), scenarioTxn 3 1600]

/-- Windowed months of the scenario. -/
def scenarioMD : List MonthData := monthlyData scenarioTxs

/-- Two populated months. -/
def twoMonthTxs : List Txn :=
  [⟨some (2024, 1), some 5, none⟩, ⟨some (2024, 2), some 7, none⟩]

/-- Three populated months. -/
def threeMonthTxs : List Txn :=
  [⟨some (2024, 1), some 5, none⟩, ⟨some (2024, 2), some 7, none⟩,
   ⟨some (2024, 3), some 9, none⟩]

/-- A transaction with a parseable date and a non-numeric amount. -/
def zeroAmountTxn : Txn := ⟨some (2024, 1), none, none⟩

/-- A single merged insight living in the category_trend family: it lands in
keyHighlights (top 5 of everything) and again in majorSpending. -/
def exC1Insight : MInsight :=
  { id := "x", title := "t", priority := some "high",
    domainKey := "spending_patterns", familyKey := "category_trend" }

/-- A low-priority insight of a family with quick score 5 together with five
high-priority insights of an unlisted family (quick score 2): the Comparator
puts the first one on top, the priority-rank sort drops it. -/
def exC2 : List MInsight :=
  [{ id := "m0", priority := some "low", familyKey := "balance_warning",
     domainKey := "financial_health" },
   { id := "m1", priority := some "high", familyKey := "zfam", domainKey := "z" },
   { id := "m2", priority := some "high", familyKey := "zfam", domainKey := "z" },
   { id := "m3", priority := some "high", familyKey := "zfam", domainKey := "z" },
   { id := "m4", priority := some "high", familyKey := "zfam", domainKey := "z" },
   { id := "m5", priority := some "high", familyKey := "zfam", domainKey := "z" }]

/-- A low-priority merged insight of the spending_patterns domain. -/
def spLow (n : String) : MInsight :=
  { id := n, priority := some "low", domainKey := "spending_patterns",
    familyKey := "zz" }

/-- Five high-priority insights of an unlisted domain plus two low-priority
spending_patterns insights: the five fill keyHighlights and the two land in
the byDomain group of spending_patterns. -/
def exC1w : List MInsight :=
  [{ id := "h1", priority := some "high", familyKey := "zfam", domainKey := "z" },
   { id := "h2", priority := some "high", familyKey := "zfam", domainKey := "z" },
   { id := "h3", priority := some "high", familyKey := "zfam", domainKey := "z" },
   { id := "h4", priority := some "high", familyKey := "zfam", domainKey := "z" },
   { id := "h5", priority := some "high", familyKey := "zfam", domainKey := "z" },
   spLow "p1", spLow "p2"]

/-- A medium-priority merged insight. -/
def midIns (n : String) (fam : String) (dom : String) : MInsight :=
  { id := n, priority := some "medium", familyKey := fam, domainKey := dom }

/-- A low-priority merged insight. -/
def lowIns (n : String) (fam : String) (dom : String) : MInsight :=
  { id := n, priority := some "low", familyKey := fam, domainKey := dom }

/-- An input whose initial selection exceeds the cap: 5 highs for
keyHighlights, 3 category_trend for majorSpending, 3 cross_user_affinity for
crossDomain and 2 insights in each of the five listed domains, 21 selected
in all, so 6 are trimmed from the tail domain groups. -/
def exC8 : List MInsight :=
  [{ id := "h1", priority := some "high", familyKey := "zfam", domainKey := "z" },
   { id := "h2", priority := some "high", familyKey := "zfam", domainKey := "z" },
   { id := "h3", priority := some "high", familyKey := "zfam", domainKey := "z" },
   { id := "h4", priority := some "high", familyKey := "zfam", domainKey := "z" },
   { id := "h5", priority := some "high", familyKey := "zfam", domainKey := "z" },
   midIns "t1" "category_trend" "z", midIns "t2" "category_trend" "z",
   midIns "t3" "category_trend" "z",
   midIns "c1" "cross_user_affinity" "z", midIns "c2" "cross_user_affinity" "z",
   midIns "c3" "cross_user_affinity" "z",
   lowIns "d1" "f1" "spending_patterns", lowIns "d2" "f1" "spending_patterns",
   lowIns "d3" "f2" "spending_trends", lowIns "d4" "f2" "spending_trends",
   lowIns "d5" "f3" "optimization_rewards",
   lowIns "d6" "f3" "optimization_rewards",
   lowIns "d7" "f4" "behavior_lifestyle", lowIns "d8" "f4" "behavior_lifestyle",
   lowIns "d9" "f5" "sustainability_local",
   lowIns "d10" "f5" "sustainability_local"]

/-- Two insights of a quick-score-5 family. -/
def dA1 : Insight :=
  { id := "a1", familyKey := some "balance_warning",
    priority := some "high", created_at := some 2 }

/-- Second insight of the same family, older. -/
def dA2 : Insight :=
  { id := "a2", familyKey := some "balance_warning",
    priority := some "high", created_at := some 1 }

/-- One insight of a lower-scored family. -/
def dB1 : Insight :=
  { id := "b1", familyKey := some "category_trend", priority := some "high" }

/-- Input separating the round-robin of the source from the
take-one-resort-each-time reading: two families, limit 2. -/
def exC5 : List Insight := [dA1, dA2, dB1]

/-- Helper for the three-families-by-three-insights example. -/
def mkFam (f : String) (n : String) (t : Int) : Insight :=
  { id := f ++ n, familyKey := some f, priority := some "high",
    created_at := some t }

/-- Three families of three insights each (the constructed input of the
DiversitySelector property). -/
def ex9 : List Insight :=
  [mkFam "balance_warning" "1" 9, mkFam "balance_warning" "2" 8,
   mkFam "balance_warning" "3" 7,
   mkFam "merchant_loyalty" "1" 6, mkFam "merchant_loyalty" "2" 5,
   mkFam "merchant_loyalty" "3" 4,
   mkFam "category_trend" "1" 3, mkFam "category_trend" "2" 2,
   mkFam "category_trend" "3" 1]

/-- Two insights, fewer than the default limit. -/
def exSmall : List Insight := [dA1, dB1]

/-- Two insights with neither family nor familyKey, plus a categorised
one. -/
def exUnc : List Insight :=
  [{ id := "u1", priority := some "high" }, { id := "u2" }, dB1]

/-- A domain whose first family key contains the bar character: the string
key of the first insight (a|b joined with title c) collides with the key of
the second family's insights (a joined with title b|c). -/
def exC6bad : InsightDomain :=
  { key := "d",
    families :=
      [{ key := "a|b",
         insights := [{ id := "x", title := "c", priority := some "high" }] },
       { key := "a",
         insights := [{ id := "y1", title := "b|c", priority := some "medium" },
                      { id := "y2", title := "b|c", priority := some "high" }] }] }

/-- A well-behaved tree: one family with two insights sharing a title, the
later one of higher priority. -/
def exC6good : InsightDomain :=
  { key := "d", name := "D",
    families :=
      [{ key := "fam", name := "F",
         insights := [{ id := "y1", title := "T", priority := some "medium" },
                      { id := "y2", title := "T", priority := some "high" }] }] }

/-! ## Theorems -/

/-! ### Stable sort lemmas -/

theorem insertSorted_perm {α : Type} (le : α → α → Bool) (x : α) (l : List α) :
    (insertSorted le x l).Perm (x :: l) := by
  induction l with
  | nil => simp [insertSorted]
  | cons y ys ih =>
    simp only [insertSorted]
    split
    · exact List.Perm.refl _
    · exact ((ih.cons y).trans (List.Perm.swap x y ys))

theorem jsSort_perm {α : Type} (le : α → α → Bool) (l : List α) :
    (jsSort le l).Perm l := by
  induction l with
  | nil => simp [jsSort]
  | cons x xs ih =>
    exact (insertSorted_perm le x (jsSort le xs)).trans (ih.cons x)

theorem jsSort_length {α : Type} (le : α → α → Bool) (l : List α) :
    (jsSort le l).length = l.length :=
  (jsSort_perm le l).length_eq

theorem insertSorted_pairwise {α : Type} (le : α → α → Bool)
    (htot : ∀ a b, le a b ∨ le b a) (htr : ∀ a b c, le a b → le b c → le a c)
    (x : α) (l : List α) (hl : l.Pairwise (fun a b => le a b = true)) :
    (insertSorted le x l).Pairwise (fun a b => le a b = true) := by
  induction l with
  | nil => simp [insertSorted]
  | cons y ys ih =>
    rcases hl with _ | ⟨hy, hys⟩
    by_cases hxy : le x y = true
    · simp only [insertSorted, if_pos hxy]
      refine List.Pairwise.cons ?_ (List.Pairwise.cons hy hys)
      intro b hb
      rcases List.mem_cons.mp hb with rfl | hb
      · exact hxy
      · exact htr x y b hxy (hy b hb)
    · have hyx : le y x = true := (htot x y).resolve_left hxy
      simp only [insertSorted, if_neg hxy]
      refine List.Pairwise.cons ?_ (ih hys)
      intro b hb
      rcases List.mem_cons.mp ((insertSorted_perm le x ys).mem_iff.mp hb) with
        rfl | hb
      · exact hyx
      · exact hy b hb

theorem jsSort_pairwise {α : Type} (le : α → α → Bool)
    (htot : ∀ a b, le a b ∨ le b a) (htr : ∀ a b c, le a b → le b c → le a c)
    (l : List α) :
    (jsSort le l).Pairwise (fun a b => le a b = true) := by
  induction l with
  | nil => simp [jsSort]
  | cons x xs ih => exact insertSorted_pairwise le htot htr x _ ih

/-! ### Projection gate (claim C3) -/

theorem bucketsOf_filter_dates (txs : List Txn) :
    bucketsOf txs = bucketsOf (txs.filter fun t => t.date.isSome) := by
  suffices h : ∀ acc : List ((Nat × Nat) × MonthBucket),
      txs.foldl
          (fun m t =>
            match t.date with
            | none => m
            | some k => bmUpdate m k t) acc =
        (txs.filter fun t => t.date.isSome).foldl
          (fun m t =>
            match t.date with
            | none => m
            | some k => bmUpdate m k t) acc by
    exact h []
  induction txs with
  | nil => intro acc; rfl
  | cons t ts ih =>
    intro acc
    cases hd : t.date with
    | none => simp [List.filter_cons, hd, ih]
    | some k => simp [List.filter_cons, hd, ih]

/-- Claim C3: buildFinancialProjection returns the collecting variant when
the transaction list is empty or the balance is null/undefined, the
insufficient variant when transactions and a balance are present but fewer
than 3 populated month buckets exist (unparseable dates being skipped), and
a populated projection otherwise. -/
theorem C3_projection_gate (txs : List Txn) (bal : Option ℚ) :
    ((txs = [] ∨ bal = none) →
      buildProjectionGate txs bal = ProjectionGate.collecting) ∧
    (txs ≠ [] → bal ≠ none → (monthlyData txs).length < 3 →
      buildProjectionGate txs bal = ProjectionGate.insufficient) ∧
    (txs ≠ [] → bal ≠ none → 3 ≤ (monthlyData txs).length →
      buildProjectionGate txs bal = ProjectionGate.ok) ∧
    monthlyData txs = monthlyData (txs.filter fun t => t.date.isSome) := by
  refine ⟨?_, ?_, ?_, ?_⟩
  · rintro (rfl | rfl)
    · simp [buildProjectionGate]
    · simp [buildProjectionGate]
  · intro h1 h2 h3
    cases bal with
    | none => exact absurd rfl h2
    | some b =>
      have e1 : txs.isEmpty = false := by
        cases txs with
        | nil => exact absurd rfl h1
        | cons a l => rfl
      simp [buildProjectionGate, e1, h3]
  · intro h1 h2 h3
    cases bal with
    | none => exact absurd rfl h2
    | some b =>
      have e1 : txs.isEmpty = false := by
        cases txs with
        | nil => exact absurd rfl h1
        | cons a l => rfl
      have e2 : ¬ (monthlyData txs).length < 3 := by omega
      simp [buildProjectionGate, e1, e2]
  · have h := bucketsOf_filter_dates txs
    unfold monthlyData
    rw [h]

/-- Witness for C3: exactly 2 months give insufficient, exactly 3 months
give a populated projection, and no transactions give collecting. -/
theorem C3_projection_gate_witness :
    buildProjectionGate ([] : List Txn) (some 5) = ProjectionGate.collecting ∧
    buildProjectionGate twoMonthTxs (some 5) = ProjectionGate.insufficient ∧
    buildProjectionGate threeMonthTxs (some 5) = ProjectionGate.ok :=
  ⟨(C3_projection_gate [] (some 5)).1 (Or.inl rfl),
   (C3_projection_gate twoMonthTxs (some 5)).2.1 (by decide) (by decide)
     (by decide),
   (C3_projection_gate threeMonthTxs (some 5)).2.2.1 (by decide) (by decide)
     (by decide)⟩

/-! ### Zero-amount transactions (claim C9) -/

/-- Claim C9 (implicit): a transaction with a parseable date and amount
exactly 0 — a non-numeric amount being coerced to 0 — is classified as
spending: the bucket gains 0 on the spending total, a 0 entry in
spendingEvents and in the category totals, while income and incomeEvents
are untouched. -/
theorem C9_zero_amount (b : MonthBucket) (t : Txn) :
    (amountOf t = 0 →
      (bucketAdd b t).income = b.income ∧
      (bucketAdd b t).incomeEvents = b.incomeEvents ∧
      (bucketAdd b t).spending = b.spending + 0 ∧
      (bucketAdd b t).spendingEvents = b.spendingEvents ++ [0] ∧
      (bucketAdd b t).categories = updateCat b.categories (catOf t) 0) ∧
    (t.amount = none → amountOf t = 0) ∧
    (∀ (txs : List Txn) (k : Nat × Nat), t.date = some k →
      bucketsOf (txs ++ [t]) = bmUpdate (bucketsOf txs) k t) := by
  refine ⟨?_, ?_, ?_⟩
  · intro h
    have hneg : ¬ amountOf t < 0 := by rw [h]; exact lt_irrefl 0
    simp [bucketAdd, h, hneg]
  · intro h
    simp [amountOf, h]
  · intro txs k hk
    simp [bucketsOf, List.foldl_append, hk]

/-- Witness for C9 at a concrete non-numeric-amount transaction. -/
theorem C9_zero_amount_witness :
    (bucketAdd {} zeroAmountTxn).income = ({} : MonthBucket).income ∧
    (bucketAdd {} zeroAmountTxn).incomeEvents =
      ({} : MonthBucket).incomeEvents ∧
    (bucketAdd {} zeroAmountTxn).spending = ({} : MonthBucket).spending + 0 ∧
    (bucketAdd {} zeroAmountTxn).spendingEvents =
      ({} : MonthBucket).spendingEvents ++ [0] ∧
    (bucketAdd {} zeroAmountTxn).categories =
      updateCat ({} : MonthBucket).categories (catOf zeroAmountTxn) 0 :=
  (C9_zero_amount {} zeroAmountTxn).1
    ((C9_zero_amount {} zeroAmountTxn).2.1 rfl)

/-! ### The concrete projection scenario (claim C4) -/

theorem scenario_incomes : scenarioMD.map (·.income) = [2000, 2000, 2000] := by
  norm_num [scenarioMD, scenarioTxs, scenarioTxn, monthlyData, bucketsOf,
    List.foldl, bmUpdate, bmGet, bucketAdd, amountOf, jsSort, insertSorted,
    keyLe]

theorem scenario_spendings :
    scenarioMD.map (·.spending) = [1500, 1700, 1600] := by
  norm_num [scenarioMD, scenarioTxs, scenarioTxn, monthlyData, bucketsOf,
    List.foldl, bmUpdate, bmGet, bucketAdd, amountOf, jsSort, insertSorted,
    keyLe]

theorem scenario_incomeEvents :
    scenarioMD.flatMap (·.incomeEvents) = [2000, 2000, 2000] := by
  norm_num [scenarioMD, scenarioTxs, scenarioTxn, monthlyData, bucketsOf,
    List.foldl, bmUpdate, bmGet, bucketAdd, amountOf, jsSort, insertSorted,
    keyLe, List.flatMap]

theorem scenario_nets : scenarioMD.map (·.net) = [500, 300, 400] := by
  norm_num [scenarioMD, scenarioTxs, scenarioTxn, monthlyData, bucketsOf,
    List.foldl, bmUpdate, bmGet, bucketAdd, amountOf, jsSort, insertSorted,
    keyLe]

theorem scenario_avgIncome : avgIncomeOf scenarioMD = 2000 := by
  rw [avgIncomeOf, scenario_incomes]
  norm_num [average, List.filter]

theorem scenario_avgSpending : avgSpendingOf scenarioMD = 1600 := by
  rw [avgSpendingOf, scenario_spendings]
  norm_num [average]

theorem scenario_spendingVar : spendingVarOf scenarioMD = 20000 / 3 := by
  rw [spendingVarOf, scenario_spendings]
  norm_num [stddevSq, average]

theorem scenario_netChange : netChangeOf scenarioMD = 400 := by
  rw [netChangeOf, scenario_avgIncome, scenario_avgSpending]
  norm_num

theorem scenario_incomeVar : incomeVarOf scenarioMD = 0 := by
  rw [incomeVarOf, scenario_incomeEvents]
  norm_num [stddevSq, average]

theorem scenario_length : scenarioMD.length = 3 := by
  have h := congrArg List.length scenario_incomes
  simpa using h

theorem backwardWalk_snd (l : List MonthData) :
    ∀ bal : ℚ,
      (backwardWalk bal l).map (fun p => p.2) =
        balancesFromNets bal (l.map (·.net)) := by
  induction l with
  | nil => intro bal; simp [backwardWalk, balancesFromNets]
  | cons e rest ih =>
    intro bal
    simp [backwardWalk, balancesFromNets, ih]

theorem lastBalance_of_ne_nil (md : List MonthData) (bal : ℚ)
    (h : md ≠ []) : lastHistoricalBalance md bal = bal := by
  cases hrev : md.reverse with
  | nil => exact absurd (List.reverse_eq_nil_iff.mp hrev) h
  | cons y ys =>
    unfold lastHistoricalBalance historicalLine
    rw [hrev]
    simp [backwardWalk, List.getLast?_reverse]

theorem scenario_balances :
    (historicalLine scenarioMD 5000).map (fun p => p.2) =
      [4300, 4600, 5000] := by
  unfold historicalLine
  rw [List.map_reverse, backwardWalk_snd, List.map_reverse, scenario_nets]
  norm_num [balancesFromNets]

theorem scenario_lastBalance : lastHistoricalBalance scenarioMD 5000 = 5000 := by
  refine lastBalance_of_ne_nil scenarioMD 5000 ?_
  intro h
  have := scenario_length
  rw [h] at this
  simp at this

theorem average_nonneg (l : List ℚ) (h : ∀ x ∈ l, 0 ≤ x) : 0 ≤ average l := by
  unfold average
  split
  · exact le_rfl
  · exact div_nonneg (List.sum_nonneg h) (by exact_mod_cast Nat.zero_le _)

theorem stddevSq_nonneg (l : List ℚ) : 0 ≤ stddevSq l := by
  unfold stddevSq
  split
  · exact le_rfl
  · apply average_nonneg
    intro x hx
    rcases List.mem_map.mp hx with ⟨v, hv, rfl⟩
    exact sq_nonneg _

/-- Certification of the rational encoding of incomeConfidence: it agrees
with the source form, which divides the square root of the income variance
by the average income and compares with 0.2 and 0.45. -/
theorem incomeConfidence_sqrt_form (md : List MonthData) :
    incomeConfidenceOf md =
      if 0 < avgIncomeOf md then
        if Real.sqrt ((incomeVarOf md : ℚ) : ℝ) / ((avgIncomeOf md : ℚ) : ℝ)
            < 0.2 then "high"
        else if Real.sqrt ((incomeVarOf md : ℚ) : ℝ) /
            ((avgIncomeOf md : ℚ) : ℝ) < 0.45 then "medium"
        else "low"
      else "low" := by
  by_cases ha : 0 < avgIncomeOf md
  · have haR : (0 : ℝ) < ((avgIncomeOf md : ℚ) : ℝ) := by exact_mod_cast ha
    have key : ∀ c : ℚ, 0 < c →
        ((Real.sqrt ((incomeVarOf md : ℚ) : ℝ) /
            ((avgIncomeOf md : ℚ) : ℝ) < (c : ℝ)) ↔
          incomeVarOf md < (c * avgIncomeOf md) ^ 2) := by
      intro c hc
      have hcR : (0 : ℝ) < (c : ℝ) := by exact_mod_cast hc
      rw [div_lt_iff₀ haR, Real.sqrt_lt' (mul_pos hcR haR)]
      norm_cast
    have k1 := key (1 / 5) (by norm_num)
    have k2 := key (9 / 20) (by norm_num)
    have c1 : ((1 / 5 : ℚ) : ℝ) = (0.2 : ℝ) := by norm_num
    have c2 : ((9 / 20 : ℚ) : ℝ) = (0.45 : ℝ) := by norm_num
    rw [c1] at k1
    rw [c2] at k2
    rw [incomeConfidenceOf, if_pos ha, if_pos ha]
    by_cases h1 : incomeVarOf md < (1 / 5 * avgIncomeOf md) ^ 2
    · rw [if_pos h1, if_pos (k1.mpr h1)]
    · rw [if_neg h1, if_neg (fun hc => h1 (k1.mp hc))]
      by_cases h2 : incomeVarOf md < (9 / 20 * avgIncomeOf md) ^ 2
      · rw [if_pos h2, if_pos (k2.mpr h2)]
      · rw [if_neg h2, if_neg (fun hc => h2 (k2.mp hc))]
  · rw [incomeConfidenceOf, if_neg ha, if_neg ha]

/-- Claim C4: on the concrete 3-month scenario (income 2000 each month,
spending 1500, 1700, 1600, balance 5000) the projection yields avgIncome
2000, avgSpending 1600, netChange 400, high income confidence, historical
balances 4300, 4600, 5000 (the most recent month keeping the current
balance and the month before holding 4600), and a first forecast month at
5400 whose upper and lower bands are offset by the population spending
standard deviation, the square root of 20000/3, about 81.65. -/
theorem C4_concrete_scenario :
    avgIncomeOf scenarioMD = 2000 ∧
    avgSpendingOf scenarioMD = 1600 ∧
    netChangeOf scenarioMD = 400 ∧
    incomeConfidenceOf scenarioMD = "high" ∧
    (historicalLine scenarioMD 5000).map (fun p => p.2) =
      [4300, 4600, 5000] ∧
    lastHistoricalBalance scenarioMD 5000 = 5000 ∧
    spendingVarOf scenarioMD = 20000 / 3 ∧
    spendingVarOf scenarioMD ≠ 0 ∧
    (forecastOf (K := ℝ) ((lastHistoricalBalance scenarioMD 5000 : ℚ) : ℝ)
          ((netChangeOf scenarioMD : ℚ) : ℝ)
          (Real.sqrt ((spendingVarOf scenarioMD : ℚ) : ℝ))).head? =
      some ⟨5400, 5400 + Real.sqrt ((20000 : ℝ) / 3),
            5400 - Real.sqrt ((20000 : ℝ) / 3)⟩ ∧
    81.64 < Real.sqrt ((20000 : ℝ) / 3) ∧
    Real.sqrt ((20000 : ℝ) / 3) < 81.65 := by
  refine ⟨scenario_avgIncome, scenario_avgSpending, scenario_netChange, ?_,
    scenario_balances, scenario_lastBalance, scenario_spendingVar, ?_, ?_,
    ?_, ?_⟩
  · rw [incomeConfidenceOf, scenario_avgIncome, scenario_incomeVar]
    norm_num
  · rw [scenario_spendingVar]
    norm_num
  · rw [scenario_lastBalance, scenario_netChange, scenario_spendingVar]
    have hc : (((20000 : ℚ) / 3 : ℚ) : ℝ) = (20000 : ℝ) / 3 := by push_cast; ring
    rw [hc]
    have h1 : (((5000 : ℚ) : ℝ)) = (5000 : ℝ) := by push_cast; ring
    have h2 : (((400 : ℚ) : ℝ)) = (400 : ℝ) := by push_cast; ring
    rw [h1, h2]
    simp only [forecastOf, forecastLoop, List.head?, Option.some.injEq,
      ForecastPoint.mk.injEq]
    refine ⟨by norm_num, by ring, by ring⟩
  · rw [show (81.64 : ℝ) = 81.64 from rfl, Real.lt_sqrt (by norm_num)]
    norm_num
  · rw [Real.sqrt_lt' (by norm_num)]
    norm_num

/-! ### Section allocator: pickTop characterisation and field lemmas -/

theorem rankLeM_total (a b : MInsight) : rankLeM a b = true ∨ rankLeM b a = true := by
  rcases Nat.le_total (rankM a) (rankM b) with h | h
  · left; simp [rankLeM, h]
  · right; simp [rankLeM, h]

theorem rankLeM_trans (a b c : MInsight) (h1 : rankLeM a b = true)
    (h2 : rankLeM b c = true) : rankLeM a c = true := by
  simp only [rankLeM, decide_eq_true_eq] at h1 h2 ⊢
  omega

/-- Top-k characterisation of pickTop: the result has min k n elements, is
sorted by priority rank, and together with some remainder of rank at least
its own it permutes to the filtered input. -/
theorem pickTop_spec (l : List MInsight) (p : MInsight → Bool) (k : Nat) :
    (pickTop l p k).length = min k (l.filter p).length ∧
    (pickTop l p k).Pairwise (fun a b => rankM a ≤ rankM b) ∧
    ∃ rest, ((pickTop l p k) ++ rest).Perm (l.filter p) ∧
      ∀ x ∈ pickTop l p k, ∀ y ∈ rest, rankM x ≤ rankM y := by
  have hlen : (jsSort rankLeM (l.filter p)).length = (l.filter p).length :=
    jsSort_length _ _
  have hpw : (jsSort rankLeM (l.filter p)).Pairwise
      (fun a b => rankLeM a b = true) :=
    jsSort_pairwise rankLeM rankLeM_total rankLeM_trans _
  refine ⟨?_, ?_, ?_⟩
  · rw [pickTop, List.length_take, hlen]
  · exact ((hpw.sublist (List.take_sublist k _)).imp
      (fun h => by simpa [rankLeM] using h))
  · refine ⟨(jsSort rankLeM (l.filter p)).drop k, ?_, ?_⟩
    · rw [pickTop, List.take_append_drop]
      exact jsSort_perm _ _
    · have hsplit := hpw
      rw [← List.take_append_drop k (jsSort rankLeM (l.filter p))] at hsplit
      have hcross := (List.pairwise_append.mp hsplit).2.2
      intro x hx y hy
      have := hcross x hx y hy
      simpa [rankLeM] using this

theorem sections_keyHighlights (insights : List MInsight) :
    (buildAllDomainSections insights).keyHighlights =
      sectionKeyHighlights insights := by
  unfold buildAllDomainSections
  dsimp only
  split <;> rfl

theorem sections_majorSpending (insights : List MInsight) :
    (buildAllDomainSections insights).majorSpending =
      sectionMajorSpending insights := by
  unfold buildAllDomainSections
  dsimp only
  split <;> rfl

theorem sections_crossDomain (insights : List MInsight) :
    (buildAllDomainSections insights).crossDomain =
      sectionCrossDomain insights := by
  unfold buildAllDomainSections
  dsimp only
  split <;> rfl

theorem trimGroupsRev_zero (gs : List DomainGroup) : trimGroupsRev 0 gs = gs := by
  cases gs <;> rfl

theorem trimDomainGroups_zero (gs : List DomainGroup) :
    trimDomainGroups gs 0 = gs := by
  rw [trimDomainGroups, trimGroupsRev_zero, List.reverse_reverse]

theorem sections_byDomain (insights : List MInsight) :
    (buildAllDomainSections insights).byDomain =
      trimDomainGroups (sectionRawByDomain insights)
        ((sectionKeyHighlights insights).length +
          (sectionMajorSpending insights).length +
          (sectionCrossDomain insights).length +
          groupsSize (sectionRawByDomain insights) - 15) := by
  unfold buildAllDomainSections
  dsimp only
  split
  · rfl
  · next h =>
    have e0 : (sectionKeyHighlights insights).length +
        (sectionMajorSpending insights).length +
        (sectionCrossDomain insights).length +
        groupsSize (sectionRawByDomain insights) - 15 = 0 := by omega
    rw [e0, trimDomainGroups_zero]

/-! ### Claim C2: section ordering is by priority rank, not the Comparator -/

/-- Counterexample to claim C2 as stated: buildAllDomainSections sorts by
priority rank alone, so a low-priority insight of a quick-score-5 family is
dropped from keyHighlights even though the Comparator ranks it first. -/
theorem C2_counterexample :
    (buildAllDomainSections exC2).keyHighlights.map (·.id) ≠
      comparatorTopIds exC2 5 ∧
    "m0" ∈ comparatorTopIds exC2 5 ∧
    "m0" ∉ (buildAllDomainSections exC2).keyHighlights.map (·.id) := by
  refine ⟨?_, by decide, by decide⟩
  decide

/-- Claim C2 (amended): the SectionAllocator ranks by priority rank alone —
keyHighlights is the stable top 5 of all merged insights by rank, and
majorSpending and crossDomain are the rank-top-3 of their family filters;
the three-level Comparator (quickScore, priority, recency) of the Dashboard
is not consulted by buildAllDomainSections. -/
theorem C2_rank_only_sections (insights : List MInsight) :
    ((buildAllDomainSections insights).keyHighlights.length =
        min 5 insights.length ∧
      (buildAllDomainSections insights).keyHighlights.Pairwise
        (fun a b => rankM a ≤ rankM b) ∧
      ∃ rest, ((buildAllDomainSections insights).keyHighlights ++ rest).Perm
          insights ∧
        ∀ x ∈ (buildAllDomainSections insights).keyHighlights, ∀ y ∈ rest,
          rankM x ≤ rankM y) ∧
    ((buildAllDomainSections insights).majorSpending.length =
        min 3 (insights.filter fun i => i.familyKey == "category_trend").length ∧
      (buildAllDomainSections insights).majorSpending.Pairwise
        (fun a b => rankM a ≤ rankM b) ∧
      ∃ rest, ((buildAllDomainSections insights).majorSpending ++ rest).Perm
          (insights.filter fun i => i.familyKey == "category_trend") ∧
        ∀ x ∈ (buildAllDomainSections insights).majorSpending, ∀ y ∈ rest,
          rankM x ≤ rankM y) ∧
    ((buildAllDomainSections insights).crossDomain.length =
        min 3 (insights.filter fun i =>
          crossDomainFamilies.contains i.familyKey).length ∧
      (buildAllDomainSections insights).crossDomain.Pairwise
        (fun a b => rankM a ≤ rankM b) ∧
      ∃ rest, ((buildAllDomainSections insights).crossDomain ++ rest).Perm
          (insights.filter fun i => crossDomainFamilies.contains i.familyKey) ∧
        ∀ x ∈ (buildAllDomainSections insights).crossDomain, ∀ y ∈ rest,
          rankM x ≤ rankM y) := by
  refine ⟨?_, ?_, ?_⟩
  · rw [sections_keyHighlights]
    have h := pickTop_spec insights (fun _ => true) 5
    rw [List.filter_true] at h
    exact h
  · rw [sections_majorSpending]
    exact pickTop_spec insights (fun i => i.familyKey == "category_trend") 3
  · rw [sections_crossDomain]
    exact pickTop_spec insights
      (fun i => crossDomainFamilies.contains i.familyKey) 3

/-- Witness for the amended C2 at a concrete input. -/
theorem C2_rank_only_sections_witness :
    (buildAllDomainSections exC2).keyHighlights.length = min 5 exC2.length :=
  (C2_rank_only_sections exC2).1.1

/-! ### Claim C1: id disjointness across the four groups -/

/-- Counterexample to claim C1 as stated: a single category_trend insight is
picked by keyHighlights (unconditional top 5) and again by majorSpending,
because pickTop never consults the selected set — only the byDomain loop
does. -/
theorem C1_counterexample :
    ¬ List.Pairwise (fun l1 l2 => ∀ a ∈ l1, a ∉ l2)
        (sectionsIdLists (buildAllDomainSections [exC1Insight])) := by
  decide

theorem domainGroupsGo_not_sel (insights : List MInsight) :
    ∀ (order : List String) (sel : List String),
      ∀ g ∈ domainGroupsGo insights order sel, ∀ x ∈ g.insights,
        x.id ∉ sel := by
  intro order
  induction order with
  | nil => intro sel g hg; simp [domainGroupsGo] at hg
  | cons dk rest ih =>
    intro sel g hg x hx
    simp only [domainGroupsGo] at hg
    rcases List.mem_append.mp hg with h1 | h2
    · have hg2 : g.insights =
          (jsSort rankLeM (insights.filter fun i =>
            i.domainKey == dk && !(sel.contains i.id))).take 2 := by
        split at h1
        · cases h1
        · rcases List.mem_singleton.mp h1 with rfl
          rfl
      rw [hg2] at hx
      have hx2 : x ∈ insights.filter
          (fun i => i.domainKey == dk && !(sel.contains i.id)) :=
        (jsSort_perm _ _).mem_iff.mp (List.take_subset _ _ hx)
      have hcond := (List.mem_filter.mp hx2).2
      intro hmem
      simp only [Bool.and_eq_true, Bool.not_eq_true'] at hcond
      have : sel.contains x.id = true := List.elem_iff.mpr hmem
      rw [this] at hcond
      exact Bool.false_ne_true hcond.2.symm
    · intro hmem
      exact ih _ g h2 x hx (List.mem_append.mpr (Or.inl hmem))

theorem domainGroupsGo_pairwise (insights : List MInsight) :
    ∀ (order : List String) (sel : List String),
      List.Pairwise
        (fun g1 g2 => ∀ x ∈ g2.insights, x.id ∉ g1.insights.map (·.id))
        (domainGroupsGo insights order sel) := by
  intro order
  induction order with
  | nil => intro sel; simp [domainGroupsGo]
  | cons dk rest ih =>
    intro sel
    simp only [domainGroupsGo]
    refine List.pairwise_append.mpr ⟨?_, ih _, ?_⟩
    · split
      · exact List.Pairwise.nil
      · exact List.pairwise_singleton _ _
    · intro g1 hg1 g2 hg2 x hx2
      have hins : g1.insights =
          (jsSort rankLeM (insights.filter fun i =>
            i.domainKey == dk && !(sel.contains i.id))).take 2 := by
        split at hg1
        · cases hg1
        · rcases List.mem_singleton.mp hg1 with rfl
          rfl
      intro hmem
      refine domainGroupsGo_not_sel insights rest _ g2 hg2 x hx2 ?_
      refine List.mem_append.mpr (Or.inr ?_)
      rw [← hins]
      exact hmem

theorem forall₂_mem_left {α β : Type} {R : α → β → Prop} :
    ∀ {l1 : List α} {l2 : List β}, List.Forall₂ R l1 l2 →
      ∀ {x}, x ∈ l1 → ∃ y ∈ l2, R x y := by
  intro l1 l2 h
  induction h with
  | nil => intro x hx; cases hx
  | @cons a b l1t l2t hab hf ih =>
    intro x hx
    rcases List.mem_cons.mp hx with rfl | hx
    · exact ⟨b, List.mem_cons_self _ _, hab⟩
    · obtain ⟨y, hy, hr⟩ := ih hx
      exact ⟨y, List.mem_cons_of_mem _ hy, hr⟩

theorem trimGroupsRev_sub (e : Nat) (gs : List DomainGroup) :
    ∃ gs0, gs0.Sublist gs ∧
      List.Forall₂ (fun g2 g => g2.insights.Sublist g.insights)
        (trimGroupsRev e gs) gs0 := by
  induction gs generalizing e with
  | nil =>
    refine ⟨[], List.Sublist.refl _, ?_⟩
    cases e <;> exact List.Forall₂.nil
  | cons g gs ih =>
    cases e with
    | zero =>
      refine ⟨g :: gs, List.Sublist.refl _, ?_⟩
      rw [trimGroupsRev_zero]
      exact List.forall₂_same.mpr fun x _ => List.Sublist.refl _
    | succ e0 =>
      simp only [trimGroupsRev]
      obtain ⟨gs0, hsub, hf⟩ := ih (e := e0 + 1 - min (e0 + 1) g.insights.length)
      split
      · exact ⟨gs0, hsub.cons g, by simpa using hf⟩
      · exact ⟨g :: gs0, hsub.cons₂ g,
          List.Forall₂.cons (List.take_sublist _ _) hf⟩

theorem mem_flat_trim (gs : List DomainGroup) (e : Nat) (x : MInsight)
    (hx : x ∈ (trimDomainGroups gs e).flatMap (·.insights)) :
    x ∈ gs.flatMap (·.insights) := by
  rw [trimDomainGroups] at hx
  obtain ⟨g, hg, hxg⟩ := List.mem_flatMap.mp hx
  rw [List.mem_reverse] at hg
  obtain ⟨gs0, hsub, hf⟩ := trimGroupsRev_sub e gs.reverse
  obtain ⟨g0, hg0, hrel⟩ := forall₂_mem_left hf hg
  refine List.mem_flatMap.mpr ⟨g0, ?_, hrel.subset hxg⟩
  rw [← List.mem_reverse]
  exact hsub.subset hg0

theorem pairwise_of_forall₂ {R : DomainGroup → DomainGroup → Prop}
    (hmono : ∀ a b a0 b0, a.insights.Sublist a0.insights →
      b.insights.Sublist b0.insights → R a0 b0 → R a b) :
    ∀ {l1 l0 : List DomainGroup},
      List.Forall₂ (fun g2 g => g2.insights.Sublist g.insights) l1 l0 →
      List.Pairwise R l0 → List.Pairwise R l1 := by
  intro l1 l0 hf
  induction hf with
  | nil => intro _; exact List.Pairwise.nil
  | @cons a b l1t l0t hab hft ih =>
    intro hp
    rcases hp with _ | ⟨hb, hpt⟩
    refine List.Pairwise.cons ?_ (ih hpt)
    intro y1 hy1
    obtain ⟨y0, hy0, hrel⟩ := forall₂_mem_left hft hy1
    exact hmono a y1 b y0 hab hrel (hb y0 hy0)

theorem pairwise_trim_transfer {R : DomainGroup → DomainGroup → Prop}
    (hmono : ∀ a b a0 b0, a.insights.Sublist a0.insights →
      b.insights.Sublist b0.insights → R a0 b0 → R a b)
    (gs : List DomainGroup) (e : Nat) (hp : List.Pairwise R gs) :
    List.Pairwise R (trimDomainGroups gs e) := by
  rw [trimDomainGroups, List.pairwise_reverse]
  obtain ⟨gs0, hsub, hf⟩ := trimGroupsRev_sub e gs.reverse
  have hp0 : (gs.reverse).Pairwise (fun a b => R b a) :=
    List.pairwise_reverse.mpr (by simpa using hp)
  have hp1 : gs0.Pairwise (fun a b => R b a) := hp0.sublist hsub
  exact pairwise_of_forall₂
    (fun a b a0 b0 ha hb h0 => hmono b a b0 a0 hb ha h0) hf hp1

/-- Claim C1 (amended): the selected set only guards the byDomain groups —
every byDomain insight id is absent from the ids claimed by keyHighlights,
majorSpending and crossDomain, and later byDomain groups never repeat an id
of an earlier byDomain group; the first three groups themselves are picked
independently and may overlap (see the counterexample). -/
theorem C1_byDomain_excludes (insights : List MInsight) :
    (∀ x ∈ (buildAllDomainSections insights).byDomain.flatMap (·.insights),
      x.id ∉ sectionSelectedIds insights) ∧
    List.Pairwise
      (fun g1 g2 => ∀ x ∈ g2.insights, x.id ∉ g1.insights.map (·.id))
      (buildAllDomainSections insights).byDomain := by
  constructor
  · intro x hx
    rw [sections_byDomain] at hx
    have hxraw := mem_flat_trim _ _ _ hx
    obtain ⟨g, hg, hxg⟩ := List.mem_flatMap.mp hxraw
    exact domainGroupsGo_not_sel insights sectionDomainOrder _ g hg x hxg
  · rw [sections_byDomain]
    refine pairwise_trim_transfer ?_ _ _
      (domainGroupsGo_pairwise insights sectionDomainOrder _)
    intro a b a0 b0 ha hb h0 x hx hmem
    refine h0 x (hb.subset hx) ?_
    exact (ha.map (·.id)).subset hmem

/-- Witness for the amended C1: a concrete byDomain insight id avoiding the
ids of the first three groups. -/
theorem C1_byDomain_excludes_witness :
    (spLow "p1").id ∉ sectionSelectedIds exC1w :=
  (C1_byDomain_excludes exC1w).1 (spLow "p1") (by decide)

/-! ### Claim C8: global cap and tail trimming -/

theorem groupsSize_eq_flat (gs : List DomainGroup) :
    groupsSize gs = (gs.flatMap (·.insights)).length := by
  induction gs with
  | nil => rfl
  | cons g gs ih => simp [groupsSize, ih, Function.comp_def]

theorem flat_if_kept (c : Prop) [Decidable c] (g : DomainGroup)
    (kept : List MInsight) (hc : c → kept = []) :
    ((if c then ([] : List DomainGroup)
      else [⟨g.key, g.title, kept⟩]).flatMap (·.insights)) = kept := by
  split
  · next h => simp [hc h]
  · simp

theorem trimDomainGroups_flat (gs : List DomainGroup) :
    ∀ e : Nat,
      (trimDomainGroups gs e).flatMap (·.insights) =
        (gs.flatMap (·.insights)).take
          ((gs.flatMap (·.insights)).length - e) := by
  induction gs using List.reverseRecOn with
  | nil =>
    intro e
    have h : trimDomainGroups [] e = [] := by
      rw [trimDomainGroups]
      cases e <;> rfl
    simp [h]
  | append_singleton gs g ih =>
    intro e
    cases e with
    | zero =>
      rw [trimDomainGroups_zero, Nat.sub_zero, List.take_length]
    | succ e0 =>
      have hrev : (gs ++ [g]).reverse = g :: gs.reverse := by simp
      rw [trimDomainGroups, hrev]
      simp only [trimGroupsRev]
      rw [List.reverse_append]
      have step :
          (trimGroupsRev (e0 + 1 - min (e0 + 1) g.insights.length)
            gs.reverse).reverse =
          trimDomainGroups gs (e0 + 1 - min (e0 + 1) g.insights.length) := rfl
      rw [List.flatMap_append, step, ih]
      have hkept :
          ((if (g.insights.take
              (g.insights.length - min (e0 + 1) g.insights.length)).isEmpty
            then ([] : List DomainGroup)
            else [⟨g.key, g.title,
              g.insights.take
                (g.insights.length - min (e0 + 1) g.insights.length)⟩]).reverse).flatMap
            (·.insights) =
          g.insights.take (g.insights.length - min (e0 + 1) g.insights.length) := by
        split
        · next h => simp [List.isEmpty_iff.mp h]
        · simp
      rw [hkept, List.flatMap_append]
      simp only [List.flatMap_cons, List.flatMap_nil, List.append_nil]
      rw [List.take_append_eq_append_take]
      simp only [List.length_append]
      rcases Nat.le_total (e0 + 1) g.insights.length with hk | hk
      · rw [min_eq_left hk]
        have e1 : e0 + 1 - (e0 + 1) = 0 := Nat.sub_self _
        rw [e1, Nat.sub_zero, List.take_length]
        have h2 : (gs.flatMap fun x => x.insights).length ≤
            (gs.flatMap fun x => x.insights).length + g.insights.length -
              (e0 + 1) := by
          omega
        rw [List.take_of_length_le h2]
        have h3 : (gs.flatMap fun x => x.insights).length +
            g.insights.length - (e0 + 1) -
            (gs.flatMap fun x => x.insights).length =
            g.insights.length - (e0 + 1) := by omega
        rw [h3]
      · rw [min_eq_right hk]
        have h1 : g.insights.length - g.insights.length = 0 := Nat.sub_self _
        have h2 : (gs.flatMap fun x => x.insights).length + g.insights.length -
            (e0 + 1) - (gs.flatMap fun x => x.insights).length = 0 := by omega
        have h3 : (gs.flatMap fun x => x.insights).length -
            (e0 + 1 - g.insights.length) =
            (gs.flatMap fun x => x.insights).length + g.insights.length -
              (e0 + 1) := by
          omega
        rw [h1, h2, h3]

theorem domainGroupsGo_nonempty (insights : List MInsight) :
    ∀ (order : List String) (sel : List String),
      ∀ g ∈ domainGroupsGo insights order sel, g.insights ≠ [] := by
  intro order
  induction order with
  | nil => intro sel g hg; simp [domainGroupsGo] at hg
  | cons dk rest ih =>
    intro sel g hg
    simp only [domainGroupsGo] at hg
    rcases List.mem_append.mp hg with h1 | h2
    · split at h1
      · cases h1
      · next hc =>
        rcases List.mem_singleton.mp h1 with rfl
        simpa [List.isEmpty_iff] using hc
    · exact ih _ g h2

theorem trimGroupsRev_nonempty :
    ∀ (e : Nat) (gs : List DomainGroup), (∀ g ∈ gs, g.insights ≠ []) →
      ∀ g ∈ trimGroupsRev e gs, g.insights ≠ [] := by
  intro e gs
  induction gs generalizing e with
  | nil => intro _ g hg; cases e <;> cases hg
  | cons g0 gs ih =>
    intro hne g hg
    cases e with
    | zero =>
      rw [trimGroupsRev_zero] at hg
      exact hne g hg
    | succ e0 =>
      simp only [trimGroupsRev] at hg
      rcases List.mem_append.mp hg with h1 | h2
      · split at h1
        · cases h1
        · next hc =>
          rcases List.mem_singleton.mp h1 with rfl
          simpa [List.isEmpty_iff] using hc
      · exact ih _ (fun g2 hg2 => hne g2 (List.mem_cons_of_mem _ hg2)) g h2

/-- Claim C8: the total number of insights across the four returned groups
never exceeds the cap of 15; when the initial selection exceeds the cap the
flattened byDomain list is exactly the original one with the excess removed
from its tail (tail groups trimmed first), and a group emptied by trimming
is dropped, so no returned group is empty. -/
theorem C8_cap_and_trim (insights : List MInsight) :
    ((buildAllDomainSections insights).keyHighlights.length +
      (buildAllDomainSections insights).majorSpending.length +
      (buildAllDomainSections insights).crossDomain.length +
      groupsSize (buildAllDomainSections insights).byDomain ≤ 15) ∧
    (∀ g ∈ (buildAllDomainSections insights).byDomain, g.insights ≠ []) ∧
    ((buildAllDomainSections insights).byDomain.flatMap (·.insights) =
      ((sectionRawByDomain insights).flatMap (·.insights)).take
        (((sectionRawByDomain insights).flatMap (·.insights)).length -
          ((sectionKeyHighlights insights).length +
            (sectionMajorSpending insights).length +
            (sectionCrossDomain insights).length +
            groupsSize (sectionRawByDomain insights) - 15))) := by
  have hflat : (buildAllDomainSections insights).byDomain.flatMap (·.insights) =
      ((sectionRawByDomain insights).flatMap (·.insights)).take
        (((sectionRawByDomain insights).flatMap (·.insights)).length -
          ((sectionKeyHighlights insights).length +
            (sectionMajorSpending insights).length +
            (sectionCrossDomain insights).length +
            groupsSize (sectionRawByDomain insights) - 15)) := by
    rw [sections_byDomain, trimDomainGroups_flat]
  refine ⟨?_, ?_, hflat⟩
  · have h1 : (sectionKeyHighlights insights).length ≤ 5 := by
      have := (pickTop_spec insights (fun _ => true) 5).1
      rw [List.filter_true] at this
      rw [sectionKeyHighlights, this]
      exact min_le_left _ _
    have h2 : (sectionMajorSpending insights).length ≤ 3 := by
      have := (pickTop_spec insights
        (fun i => i.familyKey == "category_trend") 3).1
      rw [sectionMajorSpending, this]
      exact min_le_left _ _
    have h3 : (sectionCrossDomain insights).length ≤ 3 := by
      have := (pickTop_spec insights
        (fun i => crossDomainFamilies.contains i.familyKey) 3).1
      rw [sectionCrossDomain, this]
      exact min_le_left _ _
    have hsz : groupsSize (buildAllDomainSections insights).byDomain =
        ((buildAllDomainSections insights).byDomain.flatMap (·.insights)).length :=
      groupsSize_eq_flat _
    have hszraw : groupsSize (sectionRawByDomain insights) =
        ((sectionRawByDomain insights).flatMap (·.insights)).length :=
      groupsSize_eq_flat _
    rw [sections_keyHighlights, sections_majorSpending, sections_crossDomain,
      hsz, hflat, List.length_take]
    rw [hszraw]
    omega
  · rw [sections_byDomain]
    intro g hg
    rw [trimDomainGroups, List.mem_reverse] at hg
    refine trimGroupsRev_nonempty _ _ ?_ g hg
    intro g2 hg2
    rw [List.mem_reverse] at hg2
    exact domainGroupsGo_nonempty insights sectionDomainOrder _ g2 hg2

/-- Witness for C8 at an input whose initial selection is 21: the returned
total obeys the cap and the flattened byDomain equals the raw one truncated
by the excess. -/
theorem C8_cap_and_trim_witness :
    ((buildAllDomainSections exC8).keyHighlights.length +
      (buildAllDomainSections exC8).majorSpending.length +
      (buildAllDomainSections exC8).crossDomain.length +
      groupsSize (buildAllDomainSections exC8).byDomain ≤ 15) ∧
    ((buildAllDomainSections exC8).byDomain.flatMap (·.insights) =
      ((sectionRawByDomain exC8).flatMap (·.insights)).take
        (((sectionRawByDomain exC8).flatMap (·.insights)).length -
          ((sectionKeyHighlights exC8).length +
            (sectionMajorSpending exC8).length +
            (sectionCrossDomain exC8).length +
            groupsSize (sectionRawByDomain exC8) - 15))) :=
  ⟨(C8_cap_and_trim exC8).1, (C8_cap_and_trim exC8).2.2⟩

/-! ### Diversity selector: bucket and pass lemmas -/

theorem takePass_added_pos (r : Nat) (bs : List Bucket)
    (h : (takePass r bs).2.2 = true) : 0 < (takePass r bs).1.length := by
  induction bs generalizing r with
  | nil => simp [takePass] at h
  | cons b bs ih =>
    match r with
    | 0 => simp [takePass] at h
    | r + 1 =>
      cases hb : b.insights with
      | nil =>
        simp only [takePass, hb] at h ⊢
        exact ih (r + 1) h
      | cons x xs => simp [takePass, hb]

theorem takePass_fst_sublist (r : Nat) (bs : List Bucket) :
    (takePass r bs).1.Sublist (bs.filterMap (·.insights.head?)) := by
  induction bs generalizing r with
  | nil => simp [takePass]
  | cons b bs ih =>
    match r with
    | 0 => simp [takePass]
    | r + 1 =>
      cases hb : b.insights with
      | nil =>
        simp only [takePass, hb, List.filterMap_cons, List.head?]
        exact ih (r + 1)
      | cons x xs =>
        simp only [takePass, hb, List.filterMap_cons, List.head?]
        exact (ih r).cons₂ x

theorem takePass_false_fst (r : Nat) (bs : List Bucket)
    (h : (takePass r bs).2.2 = false) : (takePass r bs).1 = [] := by
  induction bs generalizing r with
  | nil => simp [takePass]
  | cons b bs ih =>
    match r with
    | 0 => simp [takePass]
    | r + 1 =>
      cases hb : b.insights with
      | nil =>
        simp only [takePass, hb] at h ⊢
        exact ih (r + 1) h
      | cons x xs => simp [takePass, hb] at h

theorem takePass_false_flat (r : Nat) (bs : List Bucket) (hr : r ≠ 0)
    (h : (takePass r bs).2.2 = false) : bs.flatMap (·.insights) = [] := by
  induction bs generalizing r with
  | nil => simp
  | cons b bs ih =>
    match r with
    | 0 => exact absurd rfl hr
    | r + 1 =>
      cases hb : b.insights with
      | nil =>
        simp only [takePass, hb] at h
        simp only [List.flatMap_cons, hb, List.nil_append]
        exact ih (r + 1) (by omega) h
      | cons x xs => simp [takePass, hb] at h

theorem takePass_perm (r : Nat) (bs : List Bucket) :
    ((takePass r bs).1 ++
      (takePass r bs).2.1.flatMap (·.insights)).Perm
      (bs.flatMap (·.insights)) := by
  induction bs generalizing r with
  | nil => simp [takePass]
  | cons b bs ih =>
    match r with
    | 0 => simp [takePass]
    | r + 1 =>
      cases hb : b.insights with
      | nil =>
        simp only [takePass, hb, List.flatMap_cons, List.nil_append]
        exact ih (r + 1)
      | cons x xs =>
        simp only [takePass, hb, List.flatMap_cons, List.cons_append]
        refine List.Perm.cons x ?_
        calc (takePass r bs).1 ++
            (xs ++ (takePass r bs).2.1.flatMap (·.insights))
            |>.Perm (xs ++ ((takePass r bs).1 ++
              (takePass r bs).2.1.flatMap (·.insights))) :=
          List.perm_append_comm_assoc _ _ _
        _ |>.Perm (xs ++ bs.flatMap (·.insights)) :=
          List.Perm.append_left xs (ih r)

theorem takePass_fst_of_nonempty (r : Nat) (bs : List Bucket)
    (h : ∀ b ∈ bs, b.insights ≠ []) :
    (takePass r bs).1 = (bs.take r).filterMap (·.insights.head?) ∧
    (takePass r bs).1.length = min r bs.length := by
  induction bs generalizing r with
  | nil => simp [takePass]
  | cons b bs ih =>
    match r with
    | 0 => simp [takePass]
    | r + 1 =>
      cases hb : b.insights with
      | nil => exact absurd hb (h b (List.mem_cons_self _ _))
      | cons x xs =>
        have iht := ih r fun b2 hb2 => h b2 (List.mem_cons_of_mem _ hb2)
        constructor
        · simp only [takePass, hb, List.take_succ_cons, List.filterMap_cons,
            List.head?_cons]
          rw [iht.1]
        · simp only [takePass, hb, List.length_cons]
          rw [iht.2]
          omega

theorem heads_keys_sublist (l : List Bucket)
    (h : ∀ b ∈ l, ∀ x ∈ b.insights, bucketKeyOf x = b.familyKey) :
    ((l.filterMap (·.insights.head?)).map bucketKeyOf).Sublist
      (l.map (·.familyKey)) := by
  induction l with
  | nil => simp
  | cons b bs ih =>
    have iht := ih fun b2 hb2 => h b2 (List.mem_cons_of_mem _ hb2)
    cases hb : b.insights with
    | nil =>
      simp only [List.filterMap_cons, hb, List.head?, List.map_cons]
      exact iht.cons _
    | cons x xs =>
      simp only [List.filterMap_cons, hb, List.head?, List.map_cons]
      have hx : bucketKeyOf x = b.familyKey :=
        h b (List.mem_cons_self _ _) x (by rw [hb]; exact List.mem_cons_self _ _)
      rw [hx]
      exact iht.cons₂ _

theorem filterMap_length_all {α β : Type} (p : α → Option β) (l : List α)
    (h : ∀ x ∈ l, (p x).isSome) : (l.filterMap p).length = l.length := by
  induction l with
  | nil => rfl
  | cons x xs ih =>
    have hx := h x (List.mem_cons_self _ _)
    cases hp : p x with
    | none => rw [hp] at hx; cases hx
    | some b =>
      simp only [List.filterMap_cons, hp, List.length_cons]
      rw [ih fun y hy => h y (List.mem_cons_of_mem _ hy)]

theorem countP_le_one_of_nodup_map {α : Type} (f : α → String) (k : String) :
    ∀ l : List α, (l.map f).Nodup → l.countP (fun x => f x == k) ≤ 1 := by
  intro l
  induction l with
  | nil => intro _; simp
  | cons x xs ih =>
    intro h
    rw [List.map_cons, List.nodup_cons] at h
    rw [List.countP_cons]
    by_cases hfx : (f x == k) = true
    · have hz : xs.countP (fun y => f y == k) = 0 := by
        refine List.countP_eq_zero.mpr fun y hy hyk => ?_
        have e1 : f x = k := by simpa using hfx
        have e2 : f y = k := by simpa using hyk
        exact h.1 (by rw [e1, ← e2]; exact List.mem_map_of_mem f hy)
      rw [hz, if_pos hfx]
    · rw [if_neg hfx]
      have := ih h.2
      omega

theorem groupAdd_keys (acc : List Bucket) (k : String) (i : Insight) :
    (groupAdd acc k i).map (·.familyKey) =
      if k ∈ acc.map (·.familyKey) then acc.map (·.familyKey)
      else acc.map (·.familyKey) ++ [k] := by
  induction acc with
  | nil => simp [groupAdd]
  | cons b bs ih =>
    by_cases hb : b.familyKey = k
    · simp [groupAdd, hb]
    · simp only [groupAdd, if_neg hb, List.map_cons, ih]
      have hne : ¬ k = b.familyKey := fun hc => hb hc.symm
      by_cases hk : k ∈ bs.map (·.familyKey)
      · simp [hk, List.mem_cons, hne]
      · simp [hk, List.mem_cons, hne]

theorem groupAdd_members (acc : List Bucket) (k : String) (i : Insight)
    (hk : bucketKeyOf i = k)
    (h : ∀ b ∈ acc, ∀ x ∈ b.insights, bucketKeyOf x = b.familyKey) :
    ∀ b ∈ groupAdd acc k i, ∀ x ∈ b.insights, bucketKeyOf x = b.familyKey := by
  induction acc with
  | nil =>
    intro b hb x hx
    rcases List.mem_singleton.mp hb with rfl
    rcases List.mem_singleton.mp hx with rfl
    exact hk
  | cons b0 bs ih =>
    intro b hb x hx
    by_cases hb0 : b0.familyKey = k
    · simp only [groupAdd, if_pos hb0] at hb
      rcases List.mem_cons.mp hb with rfl | hb
      · rcases List.mem_append.mp hx with hx | hx
        · exact h b0 (List.mem_cons_self _ _) x hx
        · rcases List.mem_singleton.mp hx with rfl
          rw [hk, hb0]
      · exact h b (List.mem_cons_of_mem _ hb) x hx
    · simp only [groupAdd, if_neg hb0] at hb
      rcases List.mem_cons.mp hb with rfl | hb
      · exact h b (List.mem_cons_self _ _) x hx
      · exact ih (fun b2 hb2 => h b2 (List.mem_cons_of_mem _ hb2)) b hb x hx

theorem groupAdd_nonempty (acc : List Bucket) (k : String) (i : Insight)
    (h : ∀ b ∈ acc, b.insights ≠ []) :
    ∀ b ∈ groupAdd acc k i, b.insights ≠ [] := by
  induction acc with
  | nil =>
    intro b hb
    rcases List.mem_singleton.mp hb with rfl
    simp
  | cons b0 bs ih =>
    intro b hb
    by_cases hb0 : b0.familyKey = k
    · simp only [groupAdd, if_pos hb0] at hb
      rcases List.mem_cons.mp hb with rfl | hb
      · simp
      · exact h b (List.mem_cons_of_mem _ hb)
    · simp only [groupAdd, if_neg hb0] at hb
      rcases List.mem_cons.mp hb with rfl | hb
      · exact h b (List.mem_cons_self _ _)
      · exact ih (fun b2 hb2 => h b2 (List.mem_cons_of_mem _ hb2)) b hb

theorem groupAdd_flat_perm (acc : List Bucket) (k : String) (i : Insight) :
    ((groupAdd acc k i).flatMap (·.insights)).Perm
      (acc.flatMap (·.insights) ++ [i]) := by
  induction acc with
  | nil => simp [groupAdd]
  | cons b bs ih =>
    by_cases hb : b.familyKey = k
    · simp only [groupAdd, if_pos hb, List.flatMap_cons]
      rw [List.append_assoc, List.append_assoc]
      exact List.Perm.append_left b.insights List.perm_append_comm
    · simp only [groupAdd, if_neg hb, List.flatMap_cons]
      rw [List.append_assoc]
      exact List.Perm.append_left b.insights ih

theorem buildBuckets_keys_nodup (is : List Insight) :
    ((buildBuckets is).map (·.familyKey)).Nodup := by
  suffices h : ∀ acc : List Bucket, (acc.map (·.familyKey)).Nodup →
      ((is.foldl (fun acc i => groupAdd acc (bucketKeyOf i) i) acc).map
        (·.familyKey)).Nodup from h [] List.nodup_nil
  induction is with
  | nil => intro acc hacc; exact hacc
  | cons i is ih =>
    intro acc hacc
    refine ih _ ?_
    rw [groupAdd_keys]
    split
    · exact hacc
    · next hk =>
      simp only [List.nodup_append, List.nodup_singleton]
      exact ⟨hacc, by trivial, by simpa using hk⟩

theorem buildBuckets_members (is : List Insight) :
    ∀ b ∈ buildBuckets is, ∀ x ∈ b.insights, bucketKeyOf x = b.familyKey := by
  suffices h : ∀ acc : List Bucket,
      (∀ b ∈ acc, ∀ x ∈ b.insights, bucketKeyOf x = b.familyKey) →
      ∀ b ∈ is.foldl (fun acc i => groupAdd acc (bucketKeyOf i) i) acc,
        ∀ x ∈ b.insights, bucketKeyOf x = b.familyKey from
    h [] (by intro b hb; cases hb)
  induction is with
  | nil => intro acc hacc; exact hacc
  | cons i is ih =>
    intro acc hacc
    exact ih _ (groupAdd_members acc _ i rfl hacc)

theorem buildBuckets_nonempty (is : List Insight) :
    ∀ b ∈ buildBuckets is, b.insights ≠ [] := by
  suffices h : ∀ acc : List Bucket, (∀ b ∈ acc, b.insights ≠ []) →
      ∀ b ∈ is.foldl (fun acc i => groupAdd acc (bucketKeyOf i) i) acc,
        b.insights ≠ [] from h [] (by intro b hb; cases hb)
  induction is with
  | nil => intro acc hacc; exact hacc
  | cons i is ih =>
    intro acc hacc
    exact ih _ (groupAdd_nonempty acc _ i hacc)

theorem buildBuckets_flat_perm (is : List Insight) :
    ((buildBuckets is).flatMap (·.insights)).Perm is := by
  suffices h : ∀ acc : List Bucket,
      ((is.foldl (fun acc i => groupAdd acc (bucketKeyOf i) i) acc).flatMap
        (·.insights)).Perm (acc.flatMap (·.insights) ++ is) by
    simpa using h []
  induction is with
  | nil => intro acc; simp
  | cons i is ih =>
    intro acc
    refine (ih _).trans ?_
    refine (List.Perm.append_right is (groupAdd_flat_perm acc _ i)).trans ?_
    simp

theorem perm_flatMap {l1 l2 : List Bucket} (h : l1.Perm l2) :
    (l1.flatMap (·.insights)).Perm (l2.flatMap (·.insights)) := by
  induction h with
  | nil => exact List.Perm.refl _
  | cons x h ih => simpa using List.Perm.append_left x.insights ih
  | swap x y l =>
    simp only [List.flatMap_cons]
    rw [← List.append_assoc, ← List.append_assoc]
    exact List.Perm.append_right _ (List.perm_append_comm)
  | trans h1 h2 ih1 ih2 => exact ih1.trans ih2

theorem initBuckets_members (is : List Insight) :
    ∀ b ∈ initBuckets is, ∀ x ∈ b.insights, bucketKeyOf x = b.familyKey := by
  intro b hb x hx
  have hb2 : b ∈ (buildBuckets is).map sortBucketInsights :=
    (jsSort_perm _ _).mem_iff.mp hb
  obtain ⟨b0, hb0, rfl⟩ := List.mem_map.mp hb2
  have hx0 : x ∈ b0.insights := (jsSort_perm _ _).mem_iff.mp hx
  exact buildBuckets_members is b0 hb0 x hx0

theorem initBuckets_nonempty (is : List Insight) :
    ∀ b ∈ initBuckets is, b.insights ≠ [] := by
  intro b hb
  have hb2 : b ∈ (buildBuckets is).map sortBucketInsights :=
    (jsSort_perm _ _).mem_iff.mp hb
  obtain ⟨b0, hb0, rfl⟩ := List.mem_map.mp hb2
  intro hc
  refine buildBuckets_nonempty is b0 hb0 ?_
  have := congrArg List.length hc
  rw [sortBucketInsights] at this
  simp only [jsSort_length] at this
  exact List.length_eq_zero.mp (by simpa using this)

theorem initBuckets_keys_nodup (is : List Insight) :
    ((initBuckets is).map (·.familyKey)).Nodup := by
  have h1 : ((initBuckets is).map (·.familyKey)).Perm
      (((buildBuckets is).map sortBucketInsights).map (·.familyKey)) :=
    (jsSort_perm _ _).map _
  rw [h1.nodup_iff, List.map_map]
  have : ((·.familyKey) ∘ sortBucketInsights) =
      fun b : Bucket => b.familyKey := by
    funext b
    rfl
  rw [this]
  exact buildBuckets_keys_nodup is

theorem initBuckets_length (is : List Insight) :
    (initBuckets is).length = (buildBuckets is).length := by
  rw [initBuckets, sortBuckets, jsSort_length, List.length_map]

theorem flat_map_sortBucketInsights (bsl : List Bucket) :
    ((bsl.map sortBucketInsights).flatMap (·.insights)).Perm
      (bsl.flatMap (·.insights)) := by
  induction bsl with
  | nil => simp
  | cons b bs ih =>
    simp only [List.map_cons, List.flatMap_cons, sortBucketInsights]
    exact List.Perm.append (jsSort_perm _ _) ih

theorem initBuckets_flat_perm (is : List Insight) :
    ((initBuckets is).flatMap (·.insights)).Perm is :=
  (perm_flatMap (jsSort_perm _ _)).trans
    ((flat_map_sortBucketInsights _).trans (buildBuckets_flat_perm is))

theorem rrLoop_zero (fuel : Nat) (bs : List Bucket) : rrLoop fuel 0 bs = [] := by
  cases fuel <;> simp [rrLoop]

theorem rrLoop_drain :
    ∀ (fuel r : Nat) (bs : List Bucket),
      (bs.flatMap (·.insights)).length < r → r ≤ fuel →
      (rrLoop fuel r bs).Perm (bs.flatMap (·.insights)) := by
  intro fuel
  induction fuel with
  | zero => intro r bs h1 h2; omega
  | succ fuel ih =>
    intro r bs hlt hle
    have hr : ¬ r = 0 := by omega
    rw [rrLoop, if_neg hr]
    by_cases hflag : (takePass r bs).2.2 = true
    · rw [if_pos hflag]
      have hpos := takePass_added_pos r bs hflag
      have hperm := takePass_perm r bs
      have hlen := hperm.length_eq
      rw [List.length_append] at hlen
      have hsorted : ((sortBuckets (takePass r bs).2.1).flatMap
          (·.insights)).Perm ((takePass r bs).2.1.flatMap (·.insights)) :=
        perm_flatMap (jsSort_perm _ _)
      have hrec := ih (r - (takePass r bs).1.length)
        (sortBuckets (takePass r bs).2.1)
        (by rw [hsorted.length_eq]; omega) (by omega)
      exact (List.Perm.append_left _ (hrec.trans hsorted)).trans hperm
    · rw [if_neg hflag]
      rw [takePass_false_fst r bs (by simpa using hflag),
        takePass_false_flat r bs hr (by simpa using hflag)]

theorem rrLoop_first_pass (fuel r : Nat) (bs : List Bucket)
    (hne : ∀ b ∈ bs, b.insights ≠ []) (hr : r ≤ bs.length) (hf : r ≤ fuel) :
    rrLoop fuel r bs = (bs.take r).filterMap (·.insights.head?) := by
  cases fuel with
  | zero =>
    have : r = 0 := by omega
    subst this
    simp [rrLoop]
  | succ fuel =>
    by_cases hr0 : r = 0
    · subst hr0
      simp [rrLoop]
    · rw [rrLoop, if_neg hr0]
      obtain ⟨hfst, hlen⟩ := takePass_fst_of_nonempty r bs hne
      have hlenr : (takePass r bs).1.length = r := by
        rw [hlen]; omega
      have hflag : (takePass r bs).2.2 = true := by
        by_contra hc
        have := takePass_false_fst r bs (by simpa using hc)
        rw [this] at hlenr
        simp at hlenr
        exact hr0 hlenr.symm
      rw [if_pos hflag, hlenr, Nat.sub_self, rrLoop_zero, List.append_nil,
        hfst]

/-! ### Claim C5: the selection loop is a per-pass round robin -/

/-- Counterexample to claim C5 as stated: with two insights of one family
and one of another and limit 2, the source takes one from each family in a
single pass, while the take-one-then-resort reading of the claim takes both
insights of the first family. -/
theorem C5_counterexample :
    getDiverseInsights exC5 2 ≠ diverseClaimC5 exC5 2 ∧
    (getDiverseInsights exC5 2).map (·.id) = ["a1", "b1"] ∧
    (diverseClaimC5 exC5 2).map (·.id) = ["a1", "a2"] := by
  refine ⟨?_, by decide, by decide⟩
  decide

theorem takePass_eq_parts (r : Nat) (bs : List Bucket) :
    takePass r bs =
      (passPicks r bs, passRest r bs, !(passPicks r bs).isEmpty) := by
  induction bs generalizing r with
  | nil => cases r <;> rfl
  | cons b bs ih =>
    match r with
    | 0 => rfl
    | r + 1 =>
      cases hb : b.insights with
      | nil => simp [takePass, passPicks, passRest, hb, ih]
      | cons x xs => simp [takePass, passPicks, passRest, hb, ih]

theorem rrLoop_eq_roundRobinSpec :
    ∀ (fuel r : Nat) (bs : List Bucket),
      rrLoop fuel r bs = diverseRoundRobinSpec fuel r bs := by
  intro fuel
  induction fuel with
  | zero => intro r bs; rfl
  | succ fuel ih =>
    intro r bs
    rw [rrLoop, diverseRoundRobinSpec, takePass_eq_parts]
    by_cases hr : r = 0
    · simp [hr]
    · simp only [if_neg hr]
      by_cases hp : passPicks r bs = []
      · simp [hp]
      · have hb : (passPicks r bs).isEmpty = false := by
          simpa [List.isEmpty_iff] using hp
        simp [hb, hp, ih]

/-- Claim C5 (amended): getDiverseInsights groups by family, sorts each
bucket by the Comparator, sorts the bucket ordering by heads (empty buckets
last), then in repeated passes takes the head of every non-empty bucket in
bucket order, stopping once the limit is reached, re-sorting the bucket
ordering between passes (not after each single removal), until the limit is
reached or a pass takes nothing. -/
theorem C5_per_pass_round_robin (insights : List Insight) (limit : Nat) :
    getDiverseInsights insights limit =
      (if insights = [] then []
       else diverseRoundRobinSpec limit limit (initBuckets insights)) := by
  rw [getDiverseInsights]
  split
  · rfl
  · exact rrLoop_eq_roundRobinSpec limit limit _

/-! ### Claim C7: diversity guarantees -/

/-- Claim C7: when the limit is at most the number of distinct families, the
selection is exactly the heads of the first limit buckets after the initial
sort — one insight from each of the limit best-headed families, no family
contributing twice; and when there are fewer insights than the limit, all of
them are returned (a permutation of the input, no padding). -/
theorem C7_diversity (insights : List Insight) (limit : Nat) :
    (limit ≤ (buildBuckets insights).length →
      getDiverseInsights insights limit =
        ((initBuckets insights).take limit).filterMap (·.insights.head?) ∧
      (getDiverseInsights insights limit).length = limit ∧
      ((getDiverseInsights insights limit).map bucketKeyOf).Nodup) ∧
    (insights.length < limit →
      (getDiverseInsights insights limit).Perm insights) := by
  constructor
  · intro hlim
    by_cases hnil : insights = []
    · subst hnil
      have h0 : limit = 0 := by
        simpa [buildBuckets] using hlim
      subst h0
      refine ⟨by simp [getDiverseInsights], by simp [getDiverseInsights],
        by simp [getDiverseInsights]⟩
    · have hlim2 : limit ≤ (initBuckets insights).length := by
        rw [initBuckets_length]; exact hlim
      have hmain : getDiverseInsights insights limit =
          ((initBuckets insights).take limit).filterMap (·.insights.head?) := by
        rw [getDiverseInsights, if_neg hnil]
        exact rrLoop_first_pass limit limit _ (initBuckets_nonempty insights)
          hlim2 (le_refl _)
      refine ⟨hmain, ?_, ?_⟩
      · rw [hmain]
        have hlen : ((initBuckets insights).take limit).length = limit := by
          rw [List.length_take]
          omega
        rw [filterMap_length_all _ _ ?_, hlen]
        intro b hb
        have hbmem : b ∈ initBuckets insights :=
          List.take_subset _ _ hb
        have := initBuckets_nonempty insights b hbmem
        cases hx : b.insights with
        | nil => exact absurd hx this
        | cons y ys => simp [hx]
      · rw [hmain]
        have hsub1 : ((((initBuckets insights).take limit).filterMap
            (·.insights.head?)).map bucketKeyOf).Sublist
            (((initBuckets insights).take limit).map (·.familyKey)) :=
          heads_keys_sublist _ fun b hb x hx =>
            initBuckets_members insights b (List.take_subset _ _ hb) x hx
        have hsub2 : (((initBuckets insights).take limit).map
            (·.familyKey)).Sublist ((initBuckets insights).map (·.familyKey)) :=
          (List.take_sublist _ _).map _
        exact (hsub1.trans hsub2).nodup (initBuckets_keys_nodup insights)
  · intro hlt
    by_cases hnil : insights = []
    · subst hnil
      simp [getDiverseInsights]
    · rw [getDiverseInsights, if_neg hnil]
      have hflat := initBuckets_flat_perm insights
      refine (rrLoop_drain limit limit _ ?_ (le_refl _)).trans hflat
      rw [hflat.length_eq]
      exact hlt

/-- Witness for C7: three families of three insights with limit 3 yield
exactly one insight per family, and a 2-insight input with limit 6 returns
everything. -/
theorem C7_diversity_witness :
    (getDiverseInsights ex9 3).length = 3 ∧
    ((getDiverseInsights ex9 3).map bucketKeyOf).Nodup ∧
    (getDiverseInsights exSmall 6).Perm exSmall :=
  ⟨((C7_diversity ex9 3).1 (by decide)).2.1,
   ((C7_diversity ex9 3).1 (by decide)).2.2,
   (C7_diversity exSmall 6).2 (by decide)⟩

/-! ### Claim C10: the shared uncategorized bucket -/

/-- Claim C10 (implicit): an insight with neither family nor familyKey is
keyed uncategorized; bucket keys are pairwise distinct so all such insights
share one bucket; no insight is dropped by the bucketing (the buckets
flatten back to a permutation of the input, and every insight sits in the
bucket of its key); and one pass of the selection loop takes at most one
insight of any single bucket key. -/
theorem C10_uncategorized_bucket :
    (∀ i : Insight, i.family = none → i.familyKey = none →
      bucketKeyOf i = "uncategorized") ∧
    (∀ insights : List Insight,
      ((buildBuckets insights).map (·.familyKey)).Nodup) ∧
    (∀ insights : List Insight,
      ((buildBuckets insights).flatMap (·.insights)).Perm insights) ∧
    (∀ (insights : List Insight) (i : Insight), i ∈ insights →
      ∃ b ∈ buildBuckets insights,
        b.familyKey = bucketKeyOf i ∧ i ∈ b.insights) ∧
    (∀ (bs : List Bucket) (r : Nat) (k : String),
      (bs.map (·.familyKey)).Nodup →
      (∀ b ∈ bs, ∀ x ∈ b.insights, bucketKeyOf x = b.familyKey) →
      (takePass r bs).1.countP (fun x => bucketKeyOf x == k) ≤ 1) := by
  refine ⟨?_, buildBuckets_keys_nodup, buildBuckets_flat_perm, ?_, ?_⟩
  · intro i h1 h2
    simp [bucketKeyOf, falsyOr, h1, h2]
  · intro insights i hi
    have hmem : i ∈ (buildBuckets insights).flatMap (·.insights) :=
      (buildBuckets_flat_perm insights).mem_iff.mpr hi
    obtain ⟨b, hb, hib⟩ := List.mem_flatMap.mp hmem
    exact ⟨b, hb, (buildBuckets_members insights b hb i hib).symm, hib⟩
  · intro bs r k hnodup hmembers
    have hsub : (((takePass r bs).1.map bucketKeyOf)).Sublist
        ((bs.filterMap (·.insights.head?)).map bucketKeyOf) :=
      (takePass_fst_sublist r bs).map _
    have hsub2 := heads_keys_sublist bs hmembers
    exact countP_le_one_of_nodup_map bucketKeyOf k _
      ((hsub.trans hsub2).nodup hnodup)

/-- Witness for C10: concrete uncategorized insights and one pass on the
concrete bucket list. -/
theorem C10_uncategorized_bucket_witness :
    bucketKeyOf { id := "u1", priority := some "high" } = "uncategorized" ∧
    ((buildBuckets exUnc).map (·.familyKey)).Nodup ∧
    (takePass 6 (initBuckets exUnc)).1.countP
      (fun x => bucketKeyOf x == "uncategorized") ≤ 1 :=
  ⟨C10_uncategorized_bucket.1 _ rfl rfl,
   C10_uncategorized_bucket.2.1 exUnc,
   C10_uncategorized_bucket.2.2.2.2 (initBuckets exUnc) 6 "uncategorized"
     (by decide) (by decide)⟩

/-! ### Claim C6: deduplication by the familyKey-bar-title string -/

theorem alGet_alSet_self (m : List (String × MInsight)) (k : String)
    (v : MInsight) : alGet (alSet m k v) k = some v := by
  induction m with
  | nil => simp [alSet, alGet]
  | cons kv m ih =>
    by_cases hk : kv.1 = k
    · simp [alSet, alGet, hk]
    · simp [alSet, alGet, hk, ih]

theorem alGet_alSet_other (m : List (String × MInsight)) (k k2 : String)
    (v : MInsight) (h : k2 ≠ k) : alGet (alSet m k v) k2 = alGet m k2 := by
  induction m with
  | nil =>
    have hne : ¬ k = k2 := fun hc => h hc.symm
    simp [alSet, alGet, hne]
  | cons kv m ih =>
    by_cases hk : kv.1 = k
    · have hne : ¬ k = k2 := fun hc => h hc.symm
      simp [alSet, alGet, hk, hne]
    · simp only [alSet, if_neg hk, alGet]
      split
      · rfl
      · exact ih

theorem alSet_keys (m : List (String × MInsight)) (k : String) (v : MInsight) :
    (alSet m k v).map (·.1) =
      if k ∈ m.map (·.1) then m.map (·.1) else m.map (·.1) ++ [k] := by
  induction m with
  | nil => simp [alSet]
  | cons kv m ih =>
    by_cases hk : kv.1 = k
    · simp [alSet, hk]
    · have hne : ¬ k = kv.1 := fun hc => hk hc.symm
      simp only [alSet, if_neg hk, List.map_cons, ih]
      by_cases hm : k ∈ m.map (·.1)
      · simp [hm, List.mem_cons, hne]
      · simp [hm, List.mem_cons, hne]

theorem alSet_mem (m : List (String × MInsight)) (k : String) (v : MInsight) :
    ∀ kv ∈ alSet m k v, kv ∈ m ∨ kv = (k, v) := by
  induction m with
  | nil =>
    intro kv hkv
    rcases List.mem_singleton.mp hkv with rfl
    exact Or.inr rfl
  | cons kv0 m ih =>
    intro kv hkv
    by_cases hk : kv0.1 = k
    · simp only [alSet, if_pos hk] at hkv
      rcases List.mem_cons.mp hkv with rfl | hkv
      · right
        rw [hk]
      · exact Or.inl (List.mem_cons_of_mem _ hkv)
    · simp only [alSet, if_neg hk] at hkv
      rcases List.mem_cons.mp hkv with rfl | hkv
      · exact Or.inl (List.mem_cons_self _ _)
      · rcases ih kv hkv with h | h
        · exact Or.inl (List.mem_cons_of_mem _ h)
        · exact Or.inr h

theorem mem_values_of_alGet (m : List (String × MInsight)) (k : String)
    (v : MInsight) (h : alGet m k = some v) : v ∈ m.map (·.2) := by
  induction m with
  | nil => simp [alGet] at h
  | cons kv m ih =>
    by_cases hk : kv.1 = k
    · simp only [alGet, if_pos hk, Option.some.injEq] at h
      subst h
      exact List.mem_cons_self _ _
    · simp only [alGet, if_neg hk] at h
      exact List.mem_cons_of_mem _ (ih h)

theorem mergeMap_append (l : List MInsight) (x : MInsight) :
    mergeMap (l ++ [x]) = mergeStep (mergeMap l) x := by
  simp [mergeMap, List.foldl_append]

theorem firstMinBy_append (l : List MInsight) (x : MInsight) :
    firstMinBy (l ++ [x]) =
      some (match firstMinBy l with
        | none => x
        | some a => if rankM x < rankM a then x else a) := by
  induction l with
  | nil => simp [firstMinBy]
  | cons y ys ih =>
    have h1 : firstMinBy (y :: (ys ++ [x])) =
        match firstMinBy (ys ++ [x]) with
        | none => some y
        | some a => some (if rankM a < rankM y then a else y) := rfl
    have h2 : firstMinBy (y :: ys) =
        match firstMinBy ys with
        | none => some y
        | some a => some (if rankM a < rankM y then a else y) := rfl
    rw [List.cons_append, h1, ih, h2]
    cases hys : firstMinBy ys with
    | none => rfl
    | some a =>
      dsimp only
      split_ifs <;> first | rfl | omega

theorem firstMinBy_eq_none (l : List MInsight) :
    firstMinBy l = none ↔ l = [] := by
  cases l with
  | nil => simp [firstMinBy]
  | cons x xs =>
    simp only [firstMinBy]
    constructor
    · intro h
      split at h <;> cases h
    · intro h
      cases h

theorem mergeMap_invariant (l : List MInsight) :
    ((mergeMap l).map (·.1)).Nodup ∧
    (∀ kv ∈ mergeMap l, kv.1 = mergeKeyOf kv.2) ∧
    (∀ k, alGet (mergeMap l) k =
      firstMinBy (l.filter fun x => mergeKeyOf x == k)) := by
  induction l using List.reverseRecOn with
  | nil =>
    refine ⟨by simp [mergeMap], by intro kv h; simp [mergeMap] at h, ?_⟩
    intro k
    simp [mergeMap, alGet, firstMinBy]
  | append_singleton l x ih =>
    obtain ⟨hnd, hkv, hget⟩ := ih
    rw [mergeMap_append]
    have hstep : ∀ k, alGet (mergeStep (mergeMap l) x) k =
        firstMinBy ((l ++ [x]).filter fun y => mergeKeyOf y == k) := by
      intro k
      rw [List.filter_append]
      by_cases hk : mergeKeyOf x = k
      · subst hk
        have hfx :
            (List.filter (fun y => mergeKeyOf y == mergeKeyOf x) [x]) = [x] := by
          simp
        rw [hfx, firstMinBy_append, ← hget]
        rw [mergeStep]
        cases hcur : alGet (mergeMap l) (mergeKeyOf x) with
        | none =>
          simp only [hcur]
          rw [alGet_alSet_self]
        | some cur =>
          simp only [hcur]
          by_cases hlt : rankM x < rankM cur
          · simp only [if_pos hlt]
            rw [alGet_alSet_self]
          · simp only [if_neg hlt]
            rw [hcur]
      · have hb : (mergeKeyOf x == k) = false := by
          simp [hk]
        have hfx : (List.filter (fun y => mergeKeyOf y == k) [x]) = [] := by
          simp [List.filter, hb]
        rw [hfx, List.append_nil, ← hget]
        rw [mergeStep]
        have hne : k ≠ mergeKeyOf x := fun hc => hk hc.symm
        cases hcur : alGet (mergeMap l) (mergeKeyOf x) with
        | none =>
          simp only [hcur]
          rw [alGet_alSet_other _ _ _ _ hne]
        | some cur =>
          simp only [hcur]
          by_cases hlt : rankM x < rankM cur
          · simp only [if_pos hlt]
            rw [alGet_alSet_other _ _ _ _ hne]
          · simp only [if_neg hlt]
    refine ⟨?_, ?_, hstep⟩
    · rw [mergeStep]
      cases hcur : alGet (mergeMap l) (mergeKeyOf x) with
      | none =>
        simp only [hcur]
        rw [alSet_keys]
        split
        · exact hnd
        · next hmem =>
          simp only [List.nodup_append, List.nodup_singleton]
          exact ⟨hnd, by trivial, by simpa using hmem⟩
      | some cur =>
        simp only [hcur]
        by_cases hlt : rankM x < rankM cur
        · simp only [if_pos hlt]
          rw [alSet_keys]
          split
          · exact hnd
          · next hmem =>
            simp only [List.nodup_append, List.nodup_singleton]
            exact ⟨hnd, by trivial, by simpa using hmem⟩
        · simp only [if_neg hlt]
          exact hnd
    · rw [mergeStep]
      cases hcur : alGet (mergeMap l) (mergeKeyOf x) with
      | none =>
        simp only [hcur]
        intro kv hkv2
        rcases alSet_mem _ _ _ kv hkv2 with h | rfl
        · exact hkv kv h
        · rfl
      | some cur =>
        simp only [hcur]
        by_cases hlt : rankM x < rankM cur
        · simp only [if_pos hlt]
          intro kv hkv2
          rcases alSet_mem _ _ _ kv hkv2 with h | rfl
          · exact hkv kv h
          · rfl
        · simp only [if_neg hlt]
          exact hkv

theorem firstMinBy_mem (l : List MInsight) (a : MInsight)
    (h : firstMinBy l = some a) : a ∈ l := by
  induction l generalizing a with
  | nil => simp [firstMinBy] at h
  | cons x xs ih =>
    simp only [firstMinBy] at h
    cases hxs : firstMinBy xs with
    | none =>
      rw [hxs] at h
      simp only [Option.some.injEq] at h
      subst h
      exact List.mem_cons_self _ _
    | some b =>
      rw [hxs] at h
      simp only [Option.some.injEq] at h
      subst h
      split
      · exact List.mem_cons_of_mem _ (ih b hxs)
      · exact List.mem_cons_self _ _

theorem firstMinBy_le (l : List MInsight) (a : MInsight)
    (h : firstMinBy l = some a) : ∀ y ∈ l, rankM a ≤ rankM y := by
  induction l generalizing a with
  | nil => simp [firstMinBy] at h
  | cons x xs ih =>
    simp only [firstMinBy] at h
    intro y hy
    cases hxs : firstMinBy xs with
    | none =>
      rw [hxs] at h
      simp only [Option.some.injEq] at h
      subst h
      have : xs = [] := (firstMinBy_eq_none xs).mp hxs
      subst this
      rcases List.mem_singleton.mp hy with rfl
      exact le_refl _
    | some b =>
      rw [hxs] at h
      simp only [Option.some.injEq] at h
      subst h
      rcases List.mem_cons.mp hy with rfl | hy
      · split <;> omega
      · have := ih b hxs y hy
        split <;> omega

theorem firstMinBy_first (l : List MInsight) (a : MInsight)
    (h : firstMinBy l = some a) :
    ∃ pre post, l = pre ++ a :: post ∧ ∀ y ∈ pre, rankM a < rankM y := by
  induction l generalizing a with
  | nil => simp [firstMinBy] at h
  | cons x xs ih =>
    simp only [firstMinBy] at h
    cases hxs : firstMinBy xs with
    | none =>
      rw [hxs] at h
      simp only [Option.some.injEq] at h
      subst h
      exact ⟨[], xs, rfl, by intro y hy; cases hy⟩
    | some b =>
      rw [hxs] at h
      simp only [Option.some.injEq] at h
      by_cases hlt : rankM b < rankM x
      · rw [if_pos hlt] at h
        obtain ⟨pre, post, heq, hpre⟩ := ih b hxs
        subst h
        refine ⟨x :: pre, post, by rw [heq]; rfl, ?_⟩
        intro y hy
        rcases List.mem_cons.mp hy with rfl | hy
        · exact hlt
        · exact hpre y hy
      · rw [if_neg hlt] at h
        subst h
        exact ⟨[], xs, rfl, by intro y hy; cases hy⟩

theorem bar_split_inj :
    ∀ (a b c d : List Char), ('|') ∉ a → ('|') ∉ c →
      a ++ '|' :: b = c ++ '|' :: d → a = c ∧ b = d := by
  intro a
  induction a with
  | nil =>
    intro b c d _ hc h
    cases c with
    | nil => simpa using h
    | cons ch cs =>
      simp only [List.nil_append, List.cons_append, List.cons.injEq] at h
      exact absurd (h.1 ▸ List.mem_cons_self ch cs) hc
  | cons ch cs ih =>
    intro b c d ha hc h
    cases c with
    | nil =>
      simp only [List.cons_append, List.nil_append, List.cons.injEq] at h
      exact absurd (h.1 ▸ List.mem_cons_self ch cs) ha
    | cons ch2 cs2 =>
      simp only [List.cons_append, List.cons.injEq] at h
      have ht := ih b cs2 d (fun hm => ha (List.mem_cons_of_mem _ hm))
        (fun hm => hc (List.mem_cons_of_mem _ hm)) h.2
      exact ⟨by rw [h.1, ht.1], ht.2⟩

theorem mergeKeyOf_data (p : MInsight) :
    (mergeKeyOf p).data = p.familyKey.data ++ '|' :: p.title.data := by
  rw [mergeKeyOf, String.data_append, String.data_append, List.append_assoc]
  rfl

theorem mergeKeyOf_inj (p q : MInsight) (hp : ('|') ∉ p.familyKey.data)
    (hq : ('|') ∉ q.familyKey.data) :
    mergeKeyOf p = mergeKeyOf q ↔
      (p.familyKey = q.familyKey ∧ p.title = q.title) := by
  constructor
  · intro h
    have hd := congrArg String.data h
    rw [mergeKeyOf_data, mergeKeyOf_data] at hd
    obtain ⟨h1, h2⟩ := bar_split_inj _ _ _ _ hp hq hd
    exact ⟨String.ext h1, String.ext h2⟩
  · rintro ⟨h1, h2⟩
    rw [mergeKeyOf, mergeKeyOf, h1, h2]

/-- Counterexample to claim C6 as stated: the deduplication key is the
single string familyKey-bar-title, so with a family key containing a bar
(a|b with title c) an unrelated pair (family a, title b|c) collides with it;
the two colliding insights of family a lose to the earlier a|b insight, and
no insight with their (familyKey, title) survives at all, let alone a
minimal-rank one. -/
theorem C6_counterexample :
    ¬ (List.Pairwise
        (fun a b => ¬ (a.familyKey = b.familyKey ∧ a.title = b.title))
        (mergeSimilarInsights [exC6bad]) ∧
      ∀ fk t : String,
        2 ≤ ((allEnriched [exC6bad]).filter fun m =>
          m.familyKey == fk && m.title == t).length →
        ∃ kept ∈ mergeSimilarInsights [exC6bad],
          kept.familyKey = fk ∧ kept.title = t ∧
          ∀ y ∈ (allEnriched [exC6bad]).filter fun m =>
            m.familyKey == fk && m.title == t, rankM kept ≤ rankM y) := by
  rintro ⟨-, h⟩
  obtain ⟨kept, hmem, hfk, -⟩ := h "a" "b|c" (by decide)
  have hall : ∀ z ∈ mergeSimilarInsights [exC6bad], ¬ z.familyKey = "a" := by
    decide
  exact hall kept hmem hfk

/-- Claim C6 (amended): the merge output never holds two insights sharing
(familyKey, title); and provided no family key contains the bar character
(the dedup key is the string familyKey-bar-title, which is only injective
then), every non-empty (familyKey, title) collision group has exactly its
first minimal-rank member in the output: a kept insight of minimal priority
rank, with ties resolved to the first encountered in domain-family-insight
traversal order. -/
theorem C6_dedup (ds : List InsightDomain) :
    List.Pairwise
      (fun a b => ¬ (a.familyKey = b.familyKey ∧ a.title = b.title))
      (mergeSimilarInsights ds) ∧
    ((∀ m ∈ allEnriched ds, ('|') ∉ m.familyKey.data) →
      ∀ fk t : String,
        ((allEnriched ds).filter fun m =>
          m.familyKey == fk && m.title == t) ≠ [] →
        ∃ kept ∈ mergeSimilarInsights ds,
          firstMinBy ((allEnriched ds).filter fun m =>
            m.familyKey == fk && m.title == t) = some kept ∧
          kept ∈ ((allEnriched ds).filter fun m =>
            m.familyKey == fk && m.title == t) ∧
          (∀ y ∈ (allEnriched ds).filter fun m =>
            m.familyKey == fk && m.title == t, rankM kept ≤ rankM y) ∧
          ∃ pre post,
            ((allEnriched ds).filter fun m =>
              m.familyKey == fk && m.title == t) = pre ++ kept :: post ∧
            ∀ y ∈ pre, rankM kept < rankM y) := by
  obtain ⟨hnd, hkv, hget⟩ := mergeMap_invariant (allEnriched ds)
  constructor
  · rw [mergeSimilarInsights, List.pairwise_map]
    have hnd2 : List.Pairwise (fun p q : String × MInsight => p.1 ≠ q.1)
        (mergeMap (allEnriched ds)) := by
      have h2 := hnd
      rw [List.Nodup, List.pairwise_map] at h2
      exact h2
    refine hnd2.imp_of_mem ?_
    intro p q hp hq hne hc
    refine hne ?_
    rw [hkv p hp, hkv q hq, mergeKeyOf, mergeKeyOf, hc.1, hc.2]
  · intro hbar fk t hne
    obtain ⟨m0, hm0⟩ := List.exists_mem_of_ne_nil _ hne
    have hm0f := List.mem_filter.mp hm0
    have hm0p : m0.familyKey = fk ∧ m0.title = t := by
      have := hm0f.2
      simp only [Bool.and_eq_true, beq_iff_eq] at this
      exact this
    have hfkbar : ('|') ∉ fk.data := by
      rw [← hm0p.1]
      exact hbar m0 hm0f.1
    have hfeq : ((allEnriched ds).filter fun m =>
        m.familyKey == fk && m.title == t) =
        ((allEnriched ds).filter fun m =>
          mergeKeyOf m == mergeKeyOf m0) := by
      refine List.filter_congr ?_
      intro x hx
      rw [Bool.eq_iff_iff]
      simp only [Bool.and_eq_true, beq_iff_eq]
      rw [mergeKeyOf_inj x m0 (hbar x hx) (hbar m0 hm0f.1)]
      rw [hm0p.1, hm0p.2]
    have hget2 : alGet (mergeMap (allEnriched ds)) (mergeKeyOf m0) =
        firstMinBy ((allEnriched ds).filter fun m =>
          m.familyKey == fk && m.title == t) := by
      rw [hget, hfeq]
    cases hfm : firstMinBy ((allEnriched ds).filter fun m =>
        m.familyKey == fk && m.title == t) with
    | none => exact absurd ((firstMinBy_eq_none _).mp hfm) hne
    | some kept =>
      refine ⟨kept, ?_, rfl, firstMinBy_mem _ _ hfm, firstMinBy_le _ _ hfm,
        firstMinBy_first _ _ hfm⟩
      rw [mergeSimilarInsights]
      refine mem_values_of_alGet _ (mergeKeyOf m0) kept ?_
      rw [hget2, hfm]

/-- Witness for the amended C6 at a concrete bar-free tree: the family fam
holds two insights titled T, medium then high; the kept instance exists in
the merge output with minimal rank. -/
theorem C6_dedup_witness :
    ∃ kept ∈ mergeSimilarInsights [exC6good],
      firstMinBy ((allEnriched [exC6good]).filter fun m =>
        m.familyKey == "fam" && m.title == "T") = some kept ∧
      kept ∈ ((allEnriched [exC6good]).filter fun m =>
        m.familyKey == "fam" && m.title == "T") ∧
      (∀ y ∈ (allEnriched [exC6good]).filter fun m =>
        m.familyKey == "fam" && m.title == "T", rankM kept ≤ rankM y) ∧
      ∃ pre post,
        ((allEnriched [exC6good]).filter fun m =>
          m.familyKey == "fam" && m.title == "T") = pre ++ kept :: post ∧
        ∀ y ∈ pre, rankM kept < rankM y :=
  (C6_dedup [exC6good]).2 (by decide) "fam" "T" (by decide)

end Lucentia
